import Mathlib

/-! ADS_set: a hash set with separate chaining.

A shallow embedding of `src/ADS_set.h` (class template `ADS_set<Key, N>` and its
nested `Iterator`).

Modelling conventions
* `Element** table`, an array of `table_size` chain heads, is a `List (List Key)`:
  one list per bucket, the head of the list being the node the bucket slot points to.
  `table_size` is the length of that list (the code keeps the two in step: the only
  assignment to `table_size` is followed by `new Element*[table_size]`).
* An `Element*` is modelled by the chain suffix that starts at the node it points
  to; `nullptr` is the empty list.
* `hasher` (`std::hash<Key>`) is a parameter, `key_equal` (`std::equal_to<Key>`) is
  decidable equality on `Key`.
* `size_type` values are natural numbers.
* `float max_load_factor = 0.7` is read as the exact rational `7/10`, so
  `table_size * max_load_factor < n` is `7 * table_size < 10 * n`.  The field is
  never written with another value, so it is not carried in the state.
* `insert_direct` and `rehash` call each other.  The model takes a natural number
  `fuel`, the number of nested `rehash` calls one call may open; `none` means that
  this budget was exceeded.
-/

set_option linter.unusedSectionVars false
set_option linter.unusedVariables false

/-- The data members `table`, `table_size` (the length of `table`) and
`number_of_elements` of `ADS_set`. -/
structure ADS_set (Key : Type) where
  table : List (List Key)
  number_of_elements : Nat
  deriving DecidableEq

/-- The data members `it_pos`, `it_index`, `it_table_size` of `ADS_set::Iterator`.
The back pointer `set` is the table handed to `Iterator.inc`. -/
structure Iterator (Key : Type) where
  it_pos : List Key
  it_index : Nat
  it_table_size : Nat
  deriving DecidableEq

namespace ADS_set

variable {Key : Type} [DecidableEq Key]

/-- The member `table_size`. -/
def table_size (s : ADS_set Key) : Nat := s.table.length

/-- The member function `hash`: `hasher{}(k) % table_size`. -/
def hash (hasher : Key → Nat) (s : ADS_set Key) (k : Key) : Nat :=
  hasher k % s.table_size

/-- The state of the data members before a constructor body runs
(`table = nullptr`, `table_size = 0`, `number_of_elements = 0`). -/
def null_state : ADS_set Key := { table := [], number_of_elements := 0 }

/-- Lines 50-57 of `rehash`: the counter is reset and a table of `n` null slots is
allocated. -/
def fresh (n : Nat) : ADS_set Key :=
  { table := List.replicate n [], number_of_elements := 0 }

/-- Lines 88-96 of `insert_direct`: a new node holding `k` becomes the head of the
chain of bucket `hash(k)`, and the counter is incremented. -/
def link (hasher : Key → Nat) (s : ADS_set Key) (k : Key) : ADS_set Key :=
  { table := s.table.set (hash hasher s k) (k :: s.table.getD (hash hasher s k) []),
    number_of_elements := s.number_of_elements + 1 }

/-- The inner `while` loop of `rehash` (lines 65-71): every key of one old chain,
from its head on, is passed to `insert_direct` (here `ins`), whose returned pointer
is dropped. -/
def rehash_chain (ins : ADS_set Key → Key → Option (ADS_set Key × List Key)) :
    List Key → ADS_set Key → Option (ADS_set Key)
  | [], s => some s
  | k :: tmp, s =>
    match ins s k with
    | none => none
    | some r => rehash_chain ins tmp r.1

/-- The outer `for` loop of `rehash` (lines 61-72) over the old buckets
`0 .. old_table_size - 1`. -/
def rehash_buckets (ins : ADS_set Key → Key → Option (ADS_set Key × List Key)) :
    List (List Key) → ADS_set Key → Option (ADS_set Key)
  | [], s => some s
  | chain :: rest, s =>
    match rehash_chain ins chain s with
    | none => none
    | some s1 => rehash_buckets ins rest s1

/-- The member function `insert_direct`.  The result is the new state together with
the returned pointer `table[index]`, read after the possible rehash with the index
computed at entry. -/
def insert_direct (hasher : Key → Nat) :
    Nat → ADS_set Key → Key → Option (ADS_set Key × List Key)
  | 0, s, k =>
    if 7 * (link hasher s k).table_size < 10 * (link hasher s k).number_of_elements then
      none
    else
      some (link hasher s k, (link hasher s k).table.getD (hash hasher s k) [])
  | fuel + 1, s, k =>
    if 7 * (link hasher s k).table_size < 10 * (link hasher s k).number_of_elements then
      match rehash_buckets (insert_direct hasher fuel) (link hasher s k).table
          (fresh ((link hasher s k).table_size * 2)) with
      | none => none
      | some s2 => some (s2, s2.table.getD (hash hasher s k) [])
    else
      some (link hasher s k, (link hasher s k).table.getD (hash hasher s k) [])

/-- The member function `rehash(n)`: the old table is kept aside, a table of `n`
null slots replaces it, and every old key is inserted again with `insert_direct`. -/
def rehash (hasher : Key → Nat) (fuel : Nat) (s : ADS_set Key) (n : Nat) :
    Option (ADS_set Key) :=
  rehash_buckets (insert_direct hasher fuel) s.table (fresh n)

/-- The walk of `find_position` and `find` along one chain: the first node whose key
equals `k`, or `nullptr`. -/
def find_chain (k : Key) : List Key → List Key
  | [] => []
  | e :: rest => if e = k then e :: rest else find_chain k rest

/-- The member function `find_position`. -/
def find_position (hasher : Key → Nat) (s : ADS_set Key) (k : Key) : List Key :=
  if s.table.getD (hash hasher s k) [] = [] then []
  else find_chain k (s.table.getD (hash hasher s k) [])

/-- The `do ... while` loop of `reserve` (lines 145-147).  The first argument bounds
the number of iterations; `reserve` passes `n + 1`, which the loop never uses up
(`reserve_loop_exit`). -/
def reserve_loop : Nat → Nat → Nat → Nat
  | 0, _, new_table_size => new_table_size
  | bound + 1, n, new_table_size =>
    if 10 * n > 7 * (new_table_size * 2 + 1) then
      reserve_loop bound n (new_table_size * 2 + 1)
    else new_table_size * 2 + 1

/-- The member function `reserve`. -/
def reserve (hasher : Key → Nat) (fuel : Nat) (s : ADS_set Key) (n : Nat) :
    Option (ADS_set Key) :=
  if 10 * n > 7 * s.table_size then
    rehash hasher fuel s (reserve_loop (n + 1) n s.table_size)
  else some s

/-- The member function `size`. -/
def size (s : ADS_set Key) : Nat := s.number_of_elements

/-- The member function `empty`. -/
def empty (s : ADS_set Key) : Bool := s.number_of_elements = 0

/-- The member function `count`: `!!find_position(k)`. -/
def count (hasher : Key → Nat) (s : ADS_set Key) (k : Key) : Nat :=
  if find_position hasher s k = [] then 0 else 1

/-- The member function `end`: the default constructed iterator. -/
def end_ : Iterator Key := { it_pos := [], it_index := 0, it_table_size := 0 }

/-- The member function `find`. -/
def find (hasher : Key → Nat) (s : ADS_set Key) (k : Key) : Iterator Key :=
  if find_chain k (s.table.getD (hash hasher s k) []) = [] then end_
  else { it_pos := find_chain k (s.table.getD (hash hasher s k) []),
         it_index := hash hasher s k, it_table_size := s.table_size }

/-- The `for` loop of `begin`, entered with `index` and `table_size - index`
iterations left. -/
def begin_loop (s : ADS_set Key) : Nat → Nat → Iterator Key
  | 0, _ => end_
  | left + 1, index =>
    if s.table.getD index [] ≠ [] then
      { it_pos := s.table.getD index [], it_index := index, it_table_size := s.table_size }
    else begin_loop s left (index + 1)

/-- The member function `begin`. -/
def begin (s : ADS_set Key) : Iterator Key := begin_loop s s.table_size 0

end ADS_set

namespace Iterator

variable {Key : Type} [DecidableEq Key]

/-- The friend `operator==` of `Iterator`: only `it_pos` is compared. -/
def operator_eq (lhs rhs : Iterator Key) : Bool := lhs.it_pos = rhs.it_pos

/-- The friend `operator!=` of `Iterator`. -/
def operator_ne (lhs rhs : Iterator Key) : Bool := !(operator_eq lhs rhs)

/-- The key read by `operator*`; `none` when `it_pos` is null. -/
def deref (it : Iterator Key) : Option Key := it.it_pos.head?

/-- The `while` loop of `operator++`, with at most `left` iterations; `inc` passes
`it_table_size - it_index`, and every iteration that does not return raises
`it_index` by one. -/
def inc_loop (s : ADS_set Key) : Nat → Iterator Key → Iterator Key
  | 0, it => it
  | left + 1, it =>
    if it.it_index < it.it_table_size then
      if it.it_pos.tail ≠ [] then
        { it with it_pos := it.it_pos.tail }
      else if it.it_index + 1 = it.it_table_size then
        { it with it_pos := [], it_index := it.it_index + 1 }
      else if s.table.getD (it.it_index + 1) [] ≠ [] then
        { it with it_pos := s.table.getD (it.it_index + 1) [], it_index := it.it_index + 1 }
      else inc_loop s left { it with it_index := it.it_index + 1 }
    else it

/-- The pre-increment `operator++`, applied to an iterator of the table `s`. -/
def inc (s : ADS_set Key) (it : Iterator Key) : Iterator Key :=
  inc_loop s (it.it_table_size - it.it_index) it

end Iterator

namespace ADS_set

variable {Key : Type} [DecidableEq Key]

/-- The range-based `for` loop over a table (`for (const auto &k : other)`): from
`it`, while `it != end()`, read `*it` and apply `++it`; at most `left` keys are
read. -/
def for_range (s : ADS_set Key) : Nat → Iterator Key → List Key
  | 0, _ => []
  | left + 1, it =>
    match it.it_pos with
    | [] => []
    | k :: _ => k :: for_range s left (it.inc s)

/-- The keys a range-based `for` loop over `s` visits, in order.  The bound is one
more than the number of nodes, so the loop ends by reaching `end()`
(`for_range_remaining`). -/
def elements (s : ADS_set Key) : List Key :=
  for_range s (s.table.flatten.length + 1) s.begin

/-- The member function `insert(const key_type&)`: the new state, the returned
iterator and the returned flag. -/
def insert (hasher : Key → Nat) (fuel : Nat) (s : ADS_set Key) (k : Key) :
    Option (ADS_set Key × Iterator Key × Bool) :=
  if count hasher s k ≠ 0 then some (s, find hasher s k, false)
  else
    match insert_direct hasher fuel s k with
    | none => none
    | some r => some (r.1, find hasher r.1 k, true)

/-- The member function `insert(InputIt first, InputIt last)`; the range is given
as the list of the keys it yields.  `insert(std::initializer_list)` forwards to
it. -/
def insert_range (hasher : Key → Nat) (fuel : Nat) :
    ADS_set Key → List Key → Option (ADS_set Key)
  | s, [] => some s
  | s, k :: rest =>
    if count hasher s k = 0 then
      match reserve hasher fuel s (s.number_of_elements + 1) with
      | none => none
      | some s1 =>
        match insert_direct hasher fuel s1 k with
        | none => none
        | some r => insert_range hasher fuel r.1 rest
    else insert_range hasher fuel s rest

/-- The `while` loop of `erase` (lines 307-345) on the chain of bucket `index`: the
first node whose key equals `k` is unlinked.  `none` when the walk reaches the end
of the chain. -/
def erase_chain (k : Key) : List Key → Option (List Key)
  | [] => none
  | e :: rest =>
    if e = k then some rest
    else
      match erase_chain k rest with
      | none => none
      | some rest1 => some (e :: rest1)

/-- The member function `erase`: the new state and the returned number. -/
def erase (hasher : Key → Nat) (s : ADS_set Key) (k : Key) : ADS_set Key × Nat :=
  if find_position hasher s k ≠ [] then
    if s.table.getD (hash hasher s k) [] ≠ [] then
      match erase_chain k (s.table.getD (hash hasher s k) []) with
      | some chain =>
        ({ table := s.table.set (hash hasher s k) chain,
           number_of_elements := s.number_of_elements - 1 }, 1)
      | none => (s, 0)
    else (s, 0)
  else (s, 0)

/-- The friend `operator==` of `ADS_set`. -/
def operator_eq (hasher : Key → Nat) (lhs rhs : ADS_set Key) : Bool :=
  if lhs.number_of_elements ≠ rhs.number_of_elements then false
  else (elements rhs).all (fun a => decide (find_position hasher lhs a ≠ []))

/-- The friend `operator!=` of `ADS_set`. -/
def operator_ne (hasher : Key → Nat) (lhs rhs : ADS_set Key) : Bool :=
  !(operator_eq hasher lhs rhs)

/-- The member function `swap`: both objects after the exchange. -/
def swap (s other : ADS_set Key) : ADS_set Key × ADS_set Key := (other, s)

/-- The default constructor `ADS_set()`, for the template argument `N`. -/
def ctor (hasher : Key → Nat) (fuel : Nat) (N : Nat) : Option (ADS_set Key) :=
  rehash hasher fuel null_state N

/-- The constructors `ADS_set(std::initializer_list)` and
`ADS_set(InputIt, InputIt)`. -/
def ctor_range (hasher : Key → Nat) (fuel : Nat) (N : Nat) (ilist : List Key) :
    Option (ADS_set Key) :=
  match ctor hasher fuel N with
  | none => none
  | some s => insert_range hasher fuel s ilist

/-- The loop of the copy constructor (lines 173-175) over the keys of `other`. -/
def copy_loop (hasher : Key → Nat) (fuel : Nat) :
    List Key → ADS_set Key → Option (ADS_set Key)
  | [], s => some s
  | k :: rest, s =>
    match insert_direct hasher fuel s k with
    | none => none
    | some r => copy_loop hasher fuel rest r.1

/-- The copy constructor `ADS_set(const ADS_set &other)`. -/
def ctor_copy (hasher : Key → Nat) (fuel : Nat) (N : Nat) (other : ADS_set Key) :
    Option (ADS_set Key) :=
  match ctor hasher fuel N with
  | none => none
  | some s =>
    match reserve hasher fuel s other.number_of_elements with
    | none => none
    | some s1 => copy_loop hasher fuel (elements other) s1

/-- The copy assignment `operator=(const ADS_set &other)` applied to `s`.
`same_object` is the outcome of the test `this == &other`. -/
def assign (hasher : Key → Nat) (fuel : Nat) (N : Nat) (s other : ADS_set Key)
    (same_object : Bool) : Option (ADS_set Key) :=
  if same_object then some s
  else
    match ctor_copy hasher fuel N other with
    | none => none
    | some tmp => some (swap s tmp).1

/-- The assignment `operator=(std::initializer_list)` applied to `s`. -/
def assign_ilist (hasher : Key → Nat) (fuel : Nat) (N : Nat) (s : ADS_set Key)
    (ilist : List Key) : Option (ADS_set Key) :=
  match ctor_range hasher fuel N ilist with
  | none => none
  | some tmp => some (swap s tmp).1

/-- The member function `clear`. -/
def clear (hasher : Key → Nat) (fuel : Nat) (N : Nat) (s : ADS_set Key) :
    Option (ADS_set Key) :=
  match ctor hasher fuel N with
  | none => none
  | some tmp => some (swap s tmp).1

end ADS_set

/-! ## Vocabulary of the specification -/

namespace ADS_set

variable {Key : Type} [DecidableEq Key]

/-- All stored keys: the chains of buckets `0, 1, ...` one after the other. -/
def keys (s : ADS_set Key) : List Key := s.table.flatten

/-- Invariant I1: every node of the chain of bucket `i` holds a key that hashes to
`i` under the current capacity. -/
def Placed (hasher : Key → Nat) (s : ADS_set Key) : Prop :=
  ∀ i, i < s.table_size → ∀ k ∈ s.table.getD i [], hasher k % s.table_size = i

/-- Invariants I5, I1, I2, I3 and I4 (with `max_load_factor` read as `7/10`). -/
def Inv (hasher : Key → Nat) (s : ADS_set Key) : Prop :=
  1 ≤ s.table_size ∧ Placed hasher s ∧ (keys s).Nodup ∧
    s.number_of_elements = (keys s).length ∧ 10 * s.number_of_elements ≤ 7 * s.table_size

instance (hasher : Key → Nat) (s : ADS_set Key) : Decidable (Placed hasher s) := by
  unfold Placed; infer_instance

instance (hasher : Key → Nat) (s : ADS_set Key) : Decidable (Inv hasher s) := by
  unfold Inv; infer_instance

/-- The state `insert_direct` leaves on a table that satisfies I3 and I4: the linked
table, or, when linking exceeds the load limit, the linked table rebuilt at twice
the capacity (`insert_direct_eq`). -/
def insert_direct_state (hasher : Key → Nat) (s : ADS_set Key) (k : Key) : ADS_set Key :=
  if 7 * s.table_size < 10 * (s.number_of_elements + 1) then
    (keys (link hasher s k)).foldl (link hasher) (fresh (s.table_size * 2))
  else link hasher s k

/-- The state `erase(k)` leaves when `k` is stored (`erase_eq`). -/
def erase_state (hasher : Key → Nat) (s : ADS_set Key) (k : Key) : ADS_set Key :=
  { table := s.table.set (hash hasher s k) ((s.table.getD (hash hasher s k) []).erase k),
    number_of_elements := s.number_of_elements - 1 }

/-- The keys a traversal still has to yield from the iterator `it` of the table
`s`: the rest of the current chain, then the chains of the later buckets. -/
def remaining (s : ADS_set Key) (it : Iterator Key) : List Key :=
  match it.it_pos with
  | [] => []
  | k :: rest => k :: rest ++ (s.table.drop (it.it_index + 1)).flatten

/-- An iterator that points to a node carries the capacity of `s` and a bucket
index below it. -/
def Live (s : ADS_set Key) (it : Iterator Key) : Prop :=
  it.it_pos ≠ [] → it.it_table_size = s.table_size ∧ it.it_index < s.table_size

/-- The state `reserve(n)` leaves on a table that satisfies I3 and I4
(`reserve_eq`). -/
def reserve_state (hasher : Key → Nat) (s : ADS_set Key) (n : Nat) : ADS_set Key :=
  if 10 * n > 7 * s.table_size then
    (keys s).foldl (link hasher) (fresh (reserve_loop (n + 1) n s.table_size))
  else s

/-- The tables a program can obtain, for the template argument `N`: those returned
by a constructor, and those left by a member function called on a table obtained
before. -/
inductive Reachable (hasher : Key → Nat) (N : Nat) : ADS_set Key → Prop
  | default (fuel : Nat) (s : ADS_set Key) :
      ctor hasher fuel N = some s → Reachable hasher N s
  | range (fuel : Nat) (ilist : List Key) (s : ADS_set Key) :
      ctor_range hasher fuel N ilist = some s → Reachable hasher N s
  | copy (fuel : Nat) (other s : ADS_set Key) :
      Reachable hasher N other → ctor_copy hasher fuel N other = some s →
      Reachable hasher N s
  | insert (fuel : Nat) (s : ADS_set Key) (k : Key)
      (r : ADS_set Key × Iterator Key × Bool) :
      Reachable hasher N s → ADS_set.insert hasher fuel s k = some r →
      Reachable hasher N r.1
  | insert_range (fuel : Nat) (s : ADS_set Key) (ilist : List Key) (r : ADS_set Key) :
      Reachable hasher N s → ADS_set.insert_range hasher fuel s ilist = some r →
      Reachable hasher N r
  | erase (s : ADS_set Key) (k : Key) :
      Reachable hasher N s → Reachable hasher N (ADS_set.erase hasher s k).1
  | clear (fuel : Nat) (s r : ADS_set Key) :
      Reachable hasher N s → ADS_set.clear hasher fuel N s = some r →
      Reachable hasher N r
  | assign (fuel : Nat) (s other r : ADS_set Key) (same_object : Bool) :
      Reachable hasher N s → Reachable hasher N other →
      ADS_set.assign hasher fuel N s other same_object = some r → Reachable hasher N r
  | assign_ilist (fuel : Nat) (s : ADS_set Key) (ilist : List Key) (r : ADS_set Key) :
      Reachable hasher N s → ADS_set.assign_ilist hasher fuel N s ilist = some r →
      Reachable hasher N r

/-- A call of `insert(k)` or of `erase(k)`. -/
inductive Call (Key : Type) where
  | insert (k : Key) : Call Key
  | erase (k : Key) : Call Key

/-- A sequence of `insert(k)` and `erase(k)` calls applied to the table `s`. -/
def run (hasher : Key → Nat) (fuel : Nat) : List (Call Key) → ADS_set Key →
    Option (ADS_set Key)
  | [], s => some s
  | Call.insert k :: calls, s =>
    match ADS_set.insert hasher fuel s k with
    | none => none
    | some r => run hasher fuel calls r.1
  | Call.erase k :: calls, s => run hasher fuel calls (ADS_set.erase hasher s k).1

/-- The same calls replayed on a finite set. -/
def replay : List (Call Key) → Finset Key → Finset Key
  | [], S => S
  | Call.insert k :: calls, S => replay calls (Insert.insert k S)
  | Call.erase k :: calls, S => replay calls (S.erase k)

/-- The table `{3, 7, 11, 18}` built in a default table of capacity 11 with the
identity hash. -/
def table_4 : ADS_set Nat :=
  { table := [[11], [], [], [3], [], [], [], [18, 7], [], [], []],
    number_of_elements := 4 }

/-- The table `{3, 7, 11, 18, 1, 2, 4}` of capacity 11 with the identity hash: one
more key exceeds the load limit. -/
def table_7 : ADS_set Nat :=
  { table := [[11], [1], [2], [3], [4], [], [], [18, 7], [], [], []],
    number_of_elements := 7 }

/-- The copy the copy constructor makes of `table_4`: the chain of bucket 7 is
reversed. -/
def table_4_copy : ADS_set Nat :=
  { table := [[11], [], [], [3], [], [], [], [7, 18], [], [], []],
    number_of_elements := 4 }

/-- The table left by `insert(5)` on `table_7`: capacity 22. -/
def table_8 : ADS_set Nat :=
  { table := [[], [1], [2], [3], [4], [5], [], [7], [], [], [], [11], [], [], [], [],
      [], [], [18], [], [], []],
    number_of_elements := 8 }

/-- The table built from `{5, 9, 12}` in a default table of capacity 11 with the
identity hash, in whatever order the three keys are inserted. -/
def table_5_9_12 : ADS_set Nat :=
  { table := [[], [12], [], [], [], [5], [], [], [], [9], []],
    number_of_elements := 3 }

/-- The table the initializer-list constructor builds from `{1, 2, 2, 3}` (capacity
11, identity hash). -/
def table_1_2_3 : ADS_set Nat :=
  { table := [[], [1], [2], [3], [], [], [], [], [], [], []],
    number_of_elements := 3 }

/-- A table of capacity 1 that holds three nodes: I1-I3 hold, the load limit (I4)
does not. -/
def table_full : ADS_set Nat :=
  { table := [[3, 2, 1]], number_of_elements := 3 }

/-- The keys that a run of `insert(k)` calls over the list `L` has stored, the most
recently inserted first; a key that is already stored is not inserted again. -/
def recent (L : List Key) : List Key :=
  L.foldl (fun H k => if k ∈ H then H else k :: H) []

/-- The chains in which the keys of `H` lie when they are stored at capacity `N`,
each chain in the order of `H`. -/
def buckets (hasher : Key → Nat) (N : Nat) (H : List Key) : List (List Key) :=
  (List.range N).map (fun i => H.filter (fun k => hasher k % N = i))

/-- The table left by `insert_direct(16)` on `table_7`: capacity 22, the key 16 in
bucket 16. -/
def table_16 : ADS_set Nat :=
  { table := [[], [1], [2], [3], [4], [], [], [7], [], [], [], [11], [], [], [], [],
      [16], [], [18], [], [], []],
    number_of_elements := 8 }

/-- The table left by `insert` of 0, 22, 1, 2, 3, 4, 5, 6, in this order, on a
default table of capacity 11: the eighth key rehashes to capacity 22. -/
def table_0_22 : ADS_set Nat :=
  { table := [[0, 22], [1], [2], [3], [4], [5], [6], [], [], [], [], [], [], [], [],
      [], [], [], [], [], [], []],
    number_of_elements := 8 }

end ADS_set

/-! # Properties -/

namespace ADS_set

variable {Key : Type} [DecidableEq Key]

/-! ## Lists of chains -/

theorem flatten_set_cons_perm (l : List (List Key)) (i : Nat) (k : Key)
    (h : i < l.length) :
    (l.set i (k :: l.getD i [])).flatten.Perm (k :: l.flatten) := by
  induction l generalizing i with
  | nil => simp at h
  | cons a l ih =>
    cases i with
    | zero => simp
    | succ i =>
      have hi : i < l.length := by simpa using h
      simp only [List.set_cons_succ, List.flatten_cons, List.getD_cons_succ]
      exact ((ih i hi).append_left a).trans List.perm_middle

theorem mem_flatten_iff_getD (l : List (List Key)) (k : Key) :
    k ∈ l.flatten ↔ ∃ i, i < l.length ∧ k ∈ l.getD i [] := by
  induction l with
  | nil => simp
  | cons a l ih =>
    simp only [List.flatten_cons, List.mem_append, ih, List.length_cons]
    constructor
    · rintro (h | ⟨i, hi, hk⟩)
      · exact ⟨0, by omega, by simpa using h⟩
      · exact ⟨i + 1, by omega, by simpa using hk⟩
    · rintro ⟨i, hi, hk⟩
      cases i with
      | zero => left; simpa using hk
      | succ i => right; exact ⟨i, by omega, by simpa using hk⟩

theorem getD_set_self (l : List (List Key)) (i : Nat) (c : List Key) (h : i < l.length) :
    (l.set i c).getD i [] = c := by
  simp [List.getD_eq_getElem?_getD, List.getElem?_set, h]

theorem getD_set_other (l : List (List Key)) (i j : Nat) (c : List Key) (h : i ≠ j) :
    (l.set i c).getD j [] = l.getD j [] := by
  simp [List.getD_eq_getElem?_getD, List.getElem?_set, h]

/-! ## Lookup -/

theorem find_chain_eq_nil (k : Key) (c : List Key) : find_chain k c = [] ↔ k ∉ c := by
  induction c with
  | nil => simp [find_chain]
  | cons e c ih =>
    by_cases h : e = k
    · simp [find_chain, h]
    · simp [find_chain, h, ih, Ne.symm h]

theorem find_chain_head (k : Key) (c : List Key) (h : k ∈ c) :
    ∃ rest, find_chain k c = k :: rest := by
  induction c with
  | nil => simp at h
  | cons e c ih =>
    by_cases hek : e = k
    · exact ⟨c, by simp [find_chain, hek]⟩
    · have : k ∈ c := by
        rcases List.mem_cons.mp h with h1 | h1
        · exact absurd h1.symm hek
        · exact h1
      obtain ⟨rest, hr⟩ := ih this
      exact ⟨rest, by simp [find_chain, hek, hr]⟩

theorem find_position_eq_nil (hasher : Key → Nat) (s : ADS_set Key) (k : Key) :
    find_position hasher s k = [] ↔ k ∉ s.table.getD (hash hasher s k) [] := by
  unfold find_position
  generalize s.table.getD (hash hasher s k) [] = c
  by_cases h : c = []
  · simp [h]
  · simp [h, find_chain_eq_nil]

theorem mem_keys_iff (hasher : Key → Nat) (s : ADS_set Key) (hs : 1 ≤ s.table_size)
    (hp : Placed hasher s) (k : Key) :
    k ∈ keys s ↔ k ∈ s.table.getD (hash hasher s k) [] := by
  unfold keys
  rw [mem_flatten_iff_getD]
  constructor
  · rintro ⟨i, hi, hk⟩
    have := hp i hi k hk
    unfold hash
    rw [this]; exact hk
  · intro hk
    exact ⟨hash hasher s k, Nat.mod_lt _ hs, hk⟩

theorem count_eq (hasher : Key → Nat) (s : ADS_set Key) (hs : 1 ≤ s.table_size)
    (hp : Placed hasher s) (k : Key) :
    count hasher s k = if k ∈ keys s then 1 else 0 := by
  unfold count
  by_cases h : k ∈ keys s
  · have h1 := (mem_keys_iff hasher s hs hp k).mp h
    have h2 : find_position hasher s k ≠ [] := fun e =>
      (find_position_eq_nil hasher s k).mp e h1
    rw [if_neg h2, if_pos h]
  · have h1 : k ∉ s.table.getD (hash hasher s k) [] := fun e =>
      h ((mem_keys_iff hasher s hs hp k).mpr e)
    rw [if_pos ((find_position_eq_nil hasher s k).mpr h1), if_neg h]

theorem find_deref (hasher : Key → Nat) (s : ADS_set Key) (hs : 1 ≤ s.table_size)
    (hp : Placed hasher s) (k : Key) (hk : k ∈ keys s) :
    ∃ rest, (find hasher s k).it_pos = k :: rest := by
  rw [mem_keys_iff hasher s hs hp k] at hk
  obtain ⟨rest, hr⟩ := find_chain_head k _ hk
  refine ⟨rest, ?_⟩
  unfold find
  rw [hr]
  simp

theorem find_end (hasher : Key → Nat) (s : ADS_set Key) (hs : 1 ≤ s.table_size)
    (hp : Placed hasher s) (k : Key) (hk : k ∉ keys s) :
    find hasher s k = end_ := by
  rw [mem_keys_iff hasher s hs hp k] at hk
  unfold find
  rw [if_pos ((find_chain_eq_nil k _).mpr hk)]

end ADS_set

/-! ## Linking a node, and rebuilding a table -/

namespace ADS_set

variable {Key : Type} [DecidableEq Key]

theorem link_table_size (hasher : Key → Nat) (s : ADS_set Key) (k : Key) :
    (link hasher s k).table_size = s.table_size := by
  simp [link, table_size]

theorem link_number (hasher : Key → Nat) (s : ADS_set Key) (k : Key) :
    (link hasher s k).number_of_elements = s.number_of_elements + 1 := rfl

theorem link_keys_perm (hasher : Key → Nat) (s : ADS_set Key) (k : Key)
    (hs : 1 ≤ s.table_size) : (keys (link hasher s k)).Perm (k :: keys s) :=
  flatten_set_cons_perm s.table (hash hasher s k) k (Nat.mod_lt _ hs)

theorem link_placed (hasher : Key → Nat) (s : ADS_set Key) (k : Key)
    (hs : 1 ≤ s.table_size) (hp : Placed hasher s) : Placed hasher (link hasher s k) := by
  intro i hi x hx
  rw [link_table_size] at hi ⊢
  have hlt : hash hasher s k < s.table.length := Nat.mod_lt _ hs
  by_cases hik : hash hasher s k = i
  · subst hik
    have hx1 : x ∈ k :: s.table.getD (hash hasher s k) [] := by
      have := getD_set_self s.table (hash hasher s k)
        (k :: s.table.getD (hash hasher s k) []) hlt
      unfold link at hx
      rw [this] at hx
      exact hx
    rcases List.mem_cons.mp hx1 with h1 | h1
    · rw [h1]; rfl
    · exact hp _ hi x h1
  · have hx1 : x ∈ s.table.getD i [] := by
      have := getD_set_other s.table (hash hasher s k) i
        (k :: s.table.getD (hash hasher s k) []) hik
      unfold link at hx
      rw [this] at hx
      exact hx
    exact hp i hi x hx1

/-- What a run of `link` over the keys `L` leaves: capacity unchanged, counter raised
by the number of keys, I1 kept, and the keys of `L` added to the stored ones. -/
theorem foldl_link (hasher : Key → Nat) (L : List Key) (s : ADS_set Key)
    (hs : 1 ≤ s.table_size) (hp : Placed hasher s) :
    (L.foldl (link hasher) s).table_size = s.table_size ∧
    (L.foldl (link hasher) s).number_of_elements = s.number_of_elements + L.length ∧
    Placed hasher (L.foldl (link hasher) s) ∧
    (keys (L.foldl (link hasher) s)).Perm (L ++ keys s) := by
  induction L generalizing s with
  | nil => simp [hp]
  | cons k L ih =>
    have h1 := ih (link hasher s k) (by rw [link_table_size]; exact hs)
      (link_placed hasher s k hs hp)
    obtain ⟨a, b, c, d⟩ := h1
    refine ⟨?_, ?_, c, ?_⟩
    · simpa [link_table_size] using a
    · simp only [List.foldl_cons, List.length_cons]
      rw [b, link_number]; omega
    · simp only [List.foldl_cons]
      refine d.trans ?_
      refine ((link_keys_perm hasher s k hs).append_left L).trans ?_
      exact List.perm_middle

theorem fresh_table_size (n : Nat) : (fresh n : ADS_set Key).table_size = n := by
  simp [fresh, table_size]

theorem fresh_keys (n : Nat) : keys (fresh n : ADS_set Key) = [] := by
  simp [fresh, keys]

theorem fresh_placed (hasher : Key → Nat) (n : Nat) : Placed hasher (fresh n : ADS_set Key) := by
  intro i hi x hx
  have : (fresh n : ADS_set Key).table.getD i [] = [] := by
    simp only [fresh, List.getD_eq_getElem?_getD, List.getElem?_replicate]
    split <;> rfl
  rw [this] at hx
  simp at hx

/-- A table rebuilt at capacity `c` from the keys `L`: capacity `c`, counter equal
to the number of keys, I1, and exactly the keys of `L`. -/
theorem rebuilt (hasher : Key → Nat) (L : List Key) (c : Nat) (hc : 1 ≤ c) :
    (L.foldl (link hasher) (fresh c)).table_size = c ∧
    (L.foldl (link hasher) (fresh c)).number_of_elements = L.length ∧
    Placed hasher (L.foldl (link hasher) (fresh c)) ∧
    (keys (L.foldl (link hasher) (fresh c))).Perm L := by
  have h := foldl_link hasher L (fresh c) (by rw [fresh_table_size]; exact hc)
    (fresh_placed hasher c)
  rw [fresh_table_size, fresh_keys] at h
  simpa [fresh] using h

theorem rehash_chain_append (ins : ADS_set Key → Key → Option (ADS_set Key × List Key))
    (a b : List Key) (s : ADS_set Key) :
    rehash_chain ins (a ++ b) s =
      match rehash_chain ins a s with
      | none => none
      | some s1 => rehash_chain ins b s1 := by
  induction a generalizing s with
  | nil => simp [rehash_chain]
  | cons k a ih =>
    simp only [List.cons_append, rehash_chain]
    cases ins s k with
    | none => rfl
    | some r => exact ih r.1

theorem rehash_buckets_flatten (ins : ADS_set Key → Key → Option (ADS_set Key × List Key))
    (bs : List (List Key)) (s : ADS_set Key) :
    rehash_buckets ins bs s = rehash_chain ins bs.flatten s := by
  induction bs generalizing s with
  | nil => simp [rehash_buckets, rehash_chain]
  | cons b bs ih =>
    simp only [rehash_buckets, List.flatten_cons, rehash_chain_append]
    cases rehash_chain ins b s with
    | none => rfl
    | some s1 => exact ih s1

/-- Below the load limit `insert_direct` links the node and returns, whatever the
fuel. -/
theorem insert_direct_fit (hasher : Key → Nat) (fuel : Nat) (s : ADS_set Key) (k : Key)
    (h : 10 * (s.number_of_elements + 1) ≤ 7 * s.table_size) :
    insert_direct hasher fuel s k =
      some (link hasher s k, (link hasher s k).table.getD (hash hasher s k) []) := by
  have hn : ¬ 7 * (link hasher s k).table_size < 10 * (link hasher s k).number_of_elements := by
    rw [link_table_size, link_number]; omega
  cases fuel with
  | zero => rw [insert_direct, if_neg hn]
  | succ f => rw [insert_direct, if_neg hn]

theorem rehash_chain_fit (hasher : Key → Nat) (fuel : Nat) (L : List Key) (s : ADS_set Key)
    (h : 10 * (s.number_of_elements + L.length) ≤ 7 * s.table_size) :
    rehash_chain (insert_direct hasher fuel) L s = some (L.foldl (link hasher) s) := by
  induction L generalizing s with
  | nil => simp [rehash_chain]
  | cons k L ih =>
    have h1 : 10 * (s.number_of_elements + 1) ≤ 7 * s.table_size := by
      simp only [List.length_cons] at h; omega
    rw [rehash_chain, insert_direct_fit hasher fuel s k h1]
    simp only [List.foldl_cons]
    apply ih
    rw [link_table_size, link_number]
    simp only [List.length_cons] at h; omega

/-- A `rehash(n)` whose new capacity holds all nodes under the load limit re-links
every key and opens no nested rehash. -/
theorem rehash_fit (hasher : Key → Nat) (fuel : Nat) (s : ADS_set Key) (n : Nat)
    (h : 10 * (keys s).length ≤ 7 * n) :
    rehash hasher fuel s n = some ((keys s).foldl (link hasher) (fresh n)) := by
  unfold rehash
  rw [rehash_buckets_flatten]
  apply rehash_chain_fit
  rw [fresh_table_size]
  have h0 : (fresh n : ADS_set Key).number_of_elements = 0 := rfl
  unfold keys at h
  rw [h0]; omega

theorem insert_direct_eq (hasher : Key → Nat) (fuel : Nat) (s : ADS_set Key) (k : Key)
    (hs : 1 ≤ s.table_size) (h3 : s.number_of_elements = (keys s).length)
    (h4 : 10 * s.number_of_elements ≤ 7 * s.table_size) :
    insert_direct hasher (fuel + 1) s k =
      some (insert_direct_state hasher s k,
        (insert_direct_state hasher s k).table.getD (hash hasher s k) []) := by
  unfold insert_direct_state
  by_cases hov : 7 * s.table_size < 10 * (s.number_of_elements + 1)
  · have hov1 : 7 * (link hasher s k).table_size <
        10 * (link hasher s k).number_of_elements := by
      rw [link_table_size, link_number]; exact hov
    have hlen : (keys (link hasher s k)).length = s.number_of_elements + 1 := by
      rw [(link_keys_perm hasher s k hs).length_eq, h3]; simp
    have hr := rehash_fit hasher fuel (link hasher s k) ((link hasher s k).table_size * 2)
      (by
        rw [hlen, link_table_size]
        rcases Nat.lt_or_ge s.table_size 2 with h2 | h2
        · omega
        · omega)
    unfold rehash at hr
    rw [insert_direct, if_pos hov1, hr, if_pos hov, link_table_size]
  · rw [if_neg hov]
    exact insert_direct_fit hasher (fuel + 1) s k (by omega)

end ADS_set

/-! ## Single-key insertion -/

namespace ADS_set

variable {Key : Type} [DecidableEq Key]

theorem insert_direct_state_props (hasher : Key → Nat) (s : ADS_set Key) (k : Key)
    (hs : 1 ≤ s.table_size) (hp : Placed hasher s)
    (h3 : s.number_of_elements = (keys s).length)
    (h4 : 10 * s.number_of_elements ≤ 7 * s.table_size) :
    1 ≤ (insert_direct_state hasher s k).table_size ∧
    Placed hasher (insert_direct_state hasher s k) ∧
    (insert_direct_state hasher s k).number_of_elements =
      (keys (insert_direct_state hasher s k)).length ∧
    10 * (insert_direct_state hasher s k).number_of_elements ≤
      7 * (insert_direct_state hasher s k).table_size ∧
    (keys (insert_direct_state hasher s k)).Perm (k :: keys s) ∧
    (insert_direct_state hasher s k).number_of_elements = s.number_of_elements + 1 := by
  have hperm := link_keys_perm hasher s k hs
  have hlen : (keys (link hasher s k)).length = s.number_of_elements + 1 := by
    rw [hperm.length_eq, h3]; simp
  unfold insert_direct_state
  by_cases hov : 7 * s.table_size < 10 * (s.number_of_elements + 1)
  · rw [if_pos hov]
    obtain ⟨a, b, c, d⟩ := rebuilt hasher (keys (link hasher s k)) (s.table_size * 2)
      (by omega)
    refine ⟨by omega, c, ?_, ?_, d.trans hperm, by omega⟩
    · rw [b, d.length_eq]
    · rw [a, b, hlen]
      rcases Nat.lt_or_ge s.table_size 2 with h2 | h2
      · omega
      · omega
  · rw [if_neg hov]
    refine ⟨by rw [link_table_size]; exact hs, link_placed hasher s k hs hp, ?_, ?_,
      hperm, rfl⟩
    · rw [link_number, hlen]
    · rw [link_number, link_table_size]; omega

/-- Inserting an absent key with `insert_direct` keeps I1-I5. -/
theorem insert_direct_state_inv (hasher : Key → Nat) (s : ADS_set Key) (k : Key)
    (h : Inv hasher s) (hk : k ∉ keys s) : Inv hasher (insert_direct_state hasher s k) := by
  obtain ⟨hs, hp, h2, h3, h4⟩ := h
  obtain ⟨a, b, c, d, e, _⟩ := insert_direct_state_props hasher s k hs hp h3 h4
  exact ⟨a, b, e.nodup_iff.mpr (List.nodup_cons.mpr ⟨hk, h2⟩), c, d⟩

/-- The result of `insert(k)` on a table that satisfies the invariants. -/
theorem insert_eq (hasher : Key → Nat) (fuel : Nat) (s : ADS_set Key) (k : Key)
    (h : Inv hasher s) :
    insert hasher (fuel + 1) s k =
      if k ∈ keys s then some (s, find hasher s k, false)
      else some (insert_direct_state hasher s k,
        find hasher (insert_direct_state hasher s k) k, true) := by
  obtain ⟨hs, hp, h2, h3, h4⟩ := h
  unfold insert
  rw [count_eq hasher s hs hp k]
  by_cases hk : k ∈ keys s
  · simp [hk]
  · simp [hk, insert_direct_eq hasher fuel s k hs h3 h4]

/-- C1 (round-trip membership).  On a table that satisfies I1-I5, `insert(k)`
returns, and in the state it leaves `count(k) == 1`, `find(k)` differs from `end()`
and dereferences to `k`, and `count(j)` is what it was before for every other key
`j`; the new state satisfies the invariants again. -/
theorem insert_round_trip (hasher : Key → Nat) (fuel : Nat) (s : ADS_set Key) (k : Key)
    (h : Inv hasher s) :
    ∃ r, insert hasher (fuel + 1) s k = some r ∧
      Inv hasher r.1 ∧
      count hasher r.1 k = 1 ∧
      Iterator.operator_ne (find hasher r.1 k) end_ = true ∧
      Iterator.deref (find hasher r.1 k) = some k ∧
      ∀ j, j ≠ k → count hasher r.1 j = count hasher s j := by
  have key : ∀ t : ADS_set Key, Inv hasher t → k ∈ keys t →
      (∀ j, j ≠ k → (j ∈ keys t ↔ j ∈ keys s)) →
      count hasher t k = 1 ∧ Iterator.operator_ne (find hasher t k) end_ = true ∧
      Iterator.deref (find hasher t k) = some k ∧
      ∀ j, j ≠ k → count hasher t j = count hasher s j := by
    intro t ht hkt hj
    obtain ⟨rest, hr⟩ := find_deref hasher t ht.1 ht.2.1 k hkt
    refine ⟨by rw [count_eq hasher t ht.1 ht.2.1, if_pos hkt], ?_, ?_, ?_⟩
    · simp [Iterator.operator_ne, Iterator.operator_eq, hr, end_]
    · simp [Iterator.deref, hr]
    · intro j hjk
      rw [count_eq hasher t ht.1 ht.2.1, count_eq hasher s h.1 h.2.1]
      simp only [hj j hjk]
  rw [insert_eq hasher fuel s k h]
  by_cases hk : k ∈ keys s
  · rw [if_pos hk]
    exact ⟨_, rfl, h, key s h hk (fun _ _ => Iff.rfl)⟩
  · rw [if_neg hk]
    have hi := insert_direct_state_inv hasher s k h hk
    have hperm := (insert_direct_state_props hasher s k h.1 h.2.1 h.2.2.2.1 h.2.2.2.2).2.2.2.2.1
    refine ⟨_, rfl, hi, key _ hi (hperm.mem_iff.mpr (List.mem_cons_self _ _)) ?_⟩
    intro j hjk
    rw [hperm.mem_iff, List.mem_cons]
    constructor
    · rintro (h1 | h1)
      · exact absurd h1 hjk
      · exact h1
    · intro h1; exact Or.inr h1

/-- Witness of C1: inserting 5 into `{3, 7, 11, 18, 1, 2, 4}` (capacity 11), which
rehashes. -/
theorem insert_round_trip_witness :
    Inv id table_7 ∧
    ∃ r, insert id 1 table_7 5 = some r ∧
      Inv id r.1 ∧
      count id r.1 5 = 1 ∧
      Iterator.operator_ne (find id r.1 5) end_ = true ∧
      Iterator.deref (find id r.1 5) = some 5 ∧
      ∀ j, j ≠ 5 → count id r.1 j = count id table_7 j :=
  ⟨by decide, insert_round_trip id 0 table_7 5 (by decide)⟩

end ADS_set

namespace ADS_set

variable {Key : Type} [DecidableEq Key]

/-- C2 (duplicate insert).  On a table that satisfies the invariants `insert(k)`
returns; the flag is `false` exactly when `k` was stored before the call; in that
case the state is the one before the call and the returned iterator dereferences
to `k`; when `k` was absent the flag is `true`. -/
theorem insert_duplicate (hasher : Key → Nat) (fuel : Nat) (s : ADS_set Key) (k : Key)
    (h : Inv hasher s) :
    ∃ r, insert hasher (fuel + 1) s k = some r ∧
      (r.2.2 = false ↔ k ∈ keys s) ∧
      (k ∈ keys s → r.1 = s ∧ Iterator.deref r.2.1 = some k) ∧
      (k ∉ keys s → r.2.2 = true) := by
  rw [insert_eq hasher fuel s k h]
  by_cases hk : k ∈ keys s
  · rw [if_pos hk]
    obtain ⟨rest, hr⟩ := find_deref hasher s h.1 h.2.1 k hk
    refine ⟨_, rfl, by simp [hk], fun _ => ⟨rfl, ?_⟩, fun hn => absurd hk hn⟩
    simp [Iterator.deref, hr]
  · rw [if_neg hk]
    exact ⟨_, rfl, by simp [hk], fun hn => absurd hn hk, fun _ => rfl⟩

/-- Witness of C2: inserting the stored key 7 into `{3, 7, 11, 18}`. -/
theorem insert_duplicate_witness :
    Inv id table_4 ∧
    ∃ r, insert id 1 table_4 7 = some r ∧
      (r.2.2 = false ↔ 7 ∈ keys table_4) ∧
      (7 ∈ keys table_4 → r.1 = table_4 ∧ Iterator.deref r.2.1 = some 7) ∧
      (7 ∉ keys table_4 → r.2.2 = true) :=
  ⟨by decide, insert_duplicate id 0 table_4 7 (by decide)⟩

/-! ## Erase -/

theorem erase_chain_eq (k : Key) (c : List Key) :
    erase_chain k c = if k ∈ c then some (c.erase k) else none := by
  induction c with
  | nil => simp [erase_chain]
  | cons e c ih =>
    by_cases hek : e = k
    · simp [erase_chain, hek]
    · have hke : ¬ k = e := fun e1 => hek e1.symm
      rw [erase_chain, if_neg hek, ih]
      by_cases hkc : k ∈ c
      · simp [hkc, List.erase_cons, hek]
      · simp [hkc, hke]

theorem flatten_set_perm (l : List (List Key)) (i : Nat) (k : Key) (c : List Key)
    (h : i < l.length) (hc : (l.getD i []).Perm (k :: c)) :
    l.flatten.Perm (k :: (l.set i c).flatten) := by
  induction l generalizing i with
  | nil => simp at h
  | cons a l ih =>
    cases i with
    | zero =>
      have ha : a.Perm (k :: c) := by simpa using hc
      simpa using ha.append_right l.flatten
    | succ i =>
      have hi : i < l.length := by simpa using h
      have hc1 : (l.getD i []).Perm (k :: c) := by simpa using hc
      simp only [List.set_cons_succ, List.flatten_cons]
      exact ((ih i hi hc1).append_left a).trans List.perm_middle

theorem erase_eq (hasher : Key → Nat) (s : ADS_set Key) (k : Key)
    (hs : 1 ≤ s.table_size) (hp : Placed hasher s) :
    erase hasher s k = if k ∈ keys s then (erase_state hasher s k, 1) else (s, 0) := by
  unfold erase
  by_cases hk : k ∈ keys s
  · have h1 := (mem_keys_iff hasher s hs hp k).mp hk
    have h2 : find_position hasher s k ≠ [] := fun e =>
      (find_position_eq_nil hasher s k).mp e h1
    have h3 : s.table.getD (hash hasher s k) [] ≠ [] := fun e => by
      rw [e] at h1; simp at h1
    rw [if_pos h2, if_pos h3, erase_chain_eq, if_pos h1, if_pos hk]
    rfl
  · have h1 : k ∉ s.table.getD (hash hasher s k) [] := fun e =>
      hk ((mem_keys_iff hasher s hs hp k).mpr e)
    have h2 : ¬ find_position hasher s k ≠ [] := fun e =>
      e ((find_position_eq_nil hasher s k).mpr h1)
    rw [if_neg h2, if_neg hk]

theorem erase_state_props (hasher : Key → Nat) (s : ADS_set Key) (k : Key)
    (h : Inv hasher s) (hk : k ∈ keys s) :
    Inv hasher (erase_state hasher s k) ∧
    (keys s).Perm (k :: keys (erase_state hasher s k)) ∧
    (erase_state hasher s k).table_size = s.table_size ∧
    (erase_state hasher s k).number_of_elements + 1 = s.number_of_elements := by
  obtain ⟨hs, hp, h2, h3, h4⟩ := h
  have h1 := (mem_keys_iff hasher s hs hp k).mp hk
  have hlt : hash hasher s k < s.table.length := Nat.mod_lt _ hs
  have hperm : (keys s).Perm (k :: keys (erase_state hasher s k)) :=
    flatten_set_perm s.table (hash hasher s k) k _ hlt (List.perm_cons_erase h1)
  have hts : (erase_state hasher s k).table_size = s.table_size := by
    simp [erase_state, table_size]
  have hlen := hperm.length_eq
  simp only [List.length_cons] at hlen
  have hnum : (erase_state hasher s k).number_of_elements = s.number_of_elements - 1 := rfl
  have hnd := hperm.nodup_iff.mp h2
  refine ⟨⟨by rw [hts]; exact hs, ?_, (List.nodup_cons.mp hnd).2, by omega, by omega⟩,
    hperm, hts, by omega⟩
  intro i hi x hx
  rw [hts] at hi ⊢
  by_cases hik : hash hasher s k = i
  · subst hik
    have hx1 : x ∈ (s.table.getD (hash hasher s k) []).erase k := by
      have := getD_set_self s.table (hash hasher s k)
        ((s.table.getD (hash hasher s k) []).erase k) hlt
      unfold erase_state at hx
      rw [this] at hx
      exact hx
    exact hp _ hi x (List.mem_of_mem_erase hx1)
  · have hx1 : x ∈ s.table.getD i [] := by
      have := getD_set_other s.table (hash hasher s k) i
        ((s.table.getD (hash hasher s k) []).erase k) hik
      unfold erase_state at hx
      rw [this] at hx
      exact hx
    exact hp i hi x hx1

/-- C3 (erase).  On a table that satisfies the invariants `erase(k)` returns 1 if
`k` was stored and 0 otherwise; afterwards the invariants hold, `count(k) == 0`,
`size()` plus the returned value is the old `size()`, `count(j)` is unchanged for
every other key `j`, and a second `erase(k)` returns 0 and changes nothing. -/
theorem erase_spec (hasher : Key → Nat) (s : ADS_set Key) (k : Key) (h : Inv hasher s) :
    (erase hasher s k).2 = (if k ∈ keys s then 1 else 0) ∧
    Inv hasher (erase hasher s k).1 ∧
    count hasher (erase hasher s k).1 k = 0 ∧
    size (erase hasher s k).1 + (erase hasher s k).2 = size s ∧
    (∀ j, j ≠ k → count hasher (erase hasher s k).1 j = count hasher s j) ∧
    erase hasher (erase hasher s k).1 k = ((erase hasher s k).1, 0) := by
  have hgone : ∀ t : ADS_set Key, Inv hasher t → k ∉ keys t →
      count hasher t k = 0 ∧ erase hasher t k = (t, 0) := by
    intro t ht hkt
    exact ⟨by rw [count_eq hasher t ht.1 ht.2.1, if_neg hkt],
      by rw [erase_eq hasher t k ht.1 ht.2.1, if_neg hkt]⟩
  rw [erase_eq hasher s k h.1 h.2.1]
  by_cases hk : k ∈ keys s
  · rw [if_pos hk]
    obtain ⟨hi, hperm, hts, hnum⟩ := erase_state_props hasher s k h hk
    have hnk : k ∉ keys (erase_state hasher s k) :=
      (List.nodup_cons.mp (hperm.nodup_iff.mp h.2.2.1)).1
    refine ⟨(if_pos hk).symm, hi, (hgone _ hi hnk).1, hnum, ?_, (hgone _ hi hnk).2⟩
    intro j hjk
    have hm : j ∈ keys s ↔ j ∈ keys (erase_state hasher s k) := by
      rw [hperm.mem_iff, List.mem_cons]
      simp [hjk]
    rw [count_eq hasher _ hi.1 hi.2.1, count_eq hasher s h.1 h.2.1]
    simp only [hm]
  · rw [if_neg hk]
    exact ⟨(if_neg hk).symm, h, (hgone s h hk).1, rfl, fun _ _ => rfl, (hgone s h hk).2⟩

/-- Witness of C3: the scenario `erase(7)` on `{3, 7, 11, 18}`, the table the
initializer-list constructor builds from `{3, 7, 11, 18}`. -/
theorem erase_spec_witness :
    ctor_range id 1 11 [3, 7, 11, 18] = some table_4 ∧
    Inv id table_4 ∧
    ((erase id table_4 7).2 = (if 7 ∈ keys table_4 then 1 else 0) ∧
      Inv id (erase id table_4 7).1 ∧
      count id (erase id table_4 7).1 7 = 0 ∧
      size (erase id table_4 7).1 + (erase id table_4 7).2 = size table_4 ∧
      (∀ j, j ≠ 7 → count id (erase id table_4 7).1 j = count id table_4 j) ∧
      erase id (erase id table_4 7).1 7 = ((erase id table_4 7).1, 0)) ∧
    (erase id table_4 7).2 = 1 ∧
    size (erase id table_4 7).1 = 3 ∧
    (erase id (erase id table_4 7).1 7).2 = 0 :=
  ⟨by decide, by decide, erase_spec id table_4 7 (by decide), by decide, by decide,
    by decide⟩

end ADS_set

/-! ## Iteration -/

namespace ADS_set

variable {Key : Type} [DecidableEq Key]

theorem drop_flatten_step (l : List (List Key)) (i : Nat) (h : i < l.length) :
    (l.drop i).flatten = l.getD i [] ++ (l.drop (i + 1)).flatten := by
  rw [List.drop_eq_getElem_cons h, List.flatten_cons, List.getD_eq_getElem l [] h]

theorem remaining_nil_iff (s : ADS_set Key) (it : Iterator Key) :
    remaining s it = [] ↔ it.it_pos = [] := by
  unfold remaining
  cases it.it_pos with
  | nil => simp
  | cons k rest => simp

theorem remaining_head (s : ADS_set Key) (it : Iterator Key) :
    (remaining s it).head? = it.deref := by
  unfold remaining Iterator.deref
  cases it.it_pos with
  | nil => rfl
  | cons k rest => rfl

/-- The scan of `operator++` past the end of a chain: from bucket `it_index + 1` on,
it stops at the head of the first non-empty bucket, or with a null `it_pos`. -/
theorem inc_loop_scan (s : ADS_set Key) (left : Nat) (it : Iterator Key)
    (hts : it.it_table_size = s.table_size) (hlt : it.it_index < s.table_size)
    (hleft : left = s.table_size - it.it_index) (htail : it.it_pos.tail = []) :
    Live s (Iterator.inc_loop s left it) ∧
    remaining s (Iterator.inc_loop s left it) = (s.table.drop (it.it_index + 1)).flatten := by
  induction left generalizing it with
  | zero => omega
  | succ left ih =>
    have hc : it.it_index < it.it_table_size := by rw [hts]; exact hlt
    have ht : ¬ it.it_pos.tail ≠ [] := fun e => e htail
    rw [Iterator.inc_loop, if_pos hc, if_neg ht]
    by_cases hend : it.it_index + 1 = it.it_table_size
    · rw [if_pos hend]
      refine ⟨fun e => absurd rfl e, ?_⟩
      have : s.table.length ≤ it.it_index + 1 := by
        unfold table_size at hts; omega
      simp [remaining, List.drop_eq_nil_of_le this]
    · rw [if_neg hend]
      have hlt1 : it.it_index + 1 < s.table.length := by
        unfold table_size at hts hlt; omega
      by_cases hb : s.table.getD (it.it_index + 1) [] ≠ []
      · rw [if_pos hb]
        refine ⟨fun _ => ⟨hts, hlt1⟩, ?_⟩
        rw [drop_flatten_step s.table _ hlt1]
        unfold remaining
        cases hq : s.table.getD (it.it_index + 1) [] with
        | nil => exact absurd hq hb
        | cons k rest => simp
      · rw [if_neg hb]
        have hb1 : s.table.getD (it.it_index + 1) [] = [] := by
          by_contra e; exact hb e
        have := ih { it with it_index := it.it_index + 1 } hts hlt1
          (by unfold table_size at *; simp only; omega) htail
        refine ⟨this.1, ?_⟩
        rw [this.2, drop_flatten_step s.table _ hlt1, hb1]
        rfl

/-- One `operator++` on an iterator that points to a node: the traversal loses its
first key. -/
theorem inc_step (s : ADS_set Key) (it : Iterator Key) (hl : Live s it)
    (k : Key) (L : List Key) (hr : remaining s it = k :: L) :
    Live s (it.inc s) ∧ remaining s (it.inc s) = L := by
  have hne : it.it_pos ≠ [] := fun e => by
    rw [(remaining_nil_iff s it).mpr e] at hr; cases hr
  obtain ⟨hts, hlt⟩ := hl hne
  unfold Iterator.inc
  cases hp : it.it_pos with
  | nil => exact absurd hp hne
  | cons k1 rest =>
    have hr1 : k :: L = k1 :: rest ++ (s.table.drop (it.it_index + 1)).flatten := by
      rw [← hr]; unfold remaining; rw [hp]
    have hL : L = rest ++ (s.table.drop (it.it_index + 1)).flatten := by
      simp only [List.cons_append, List.cons.injEq] at hr1
      exact hr1.2
    by_cases hrest : rest = []
    · have := inc_loop_scan s (it.it_table_size - it.it_index) it hts hlt
        (by rw [hts]) (by rw [hp, hrest]; rfl)
      refine ⟨this.1, ?_⟩
      rw [this.2, hL, hrest]; rfl
    · obtain ⟨m, hm⟩ : ∃ m, it.it_table_size - it.it_index = m + 1 :=
        ⟨it.it_table_size - it.it_index - 1, by omega⟩
      have hc : it.it_index < it.it_table_size := by rw [hts]; exact hlt
      have ht : it.it_pos.tail ≠ [] := by rw [hp]; exact hrest
      rw [hm, Iterator.inc_loop, if_pos hc, if_pos ht]
      refine ⟨fun _ => ⟨hts, hlt⟩, ?_⟩
      unfold remaining
      simp only [hp, List.tail_cons]
      cases rest with
      | nil => exact absurd rfl hrest
      | cons k2 rest2 => rw [hL]

theorem begin_loop_spec (s : ADS_set Key) (left index : Nat)
    (h : left + index = s.table_size) :
    Live s (begin_loop s left index) ∧
    remaining s (begin_loop s left index) = (s.table.drop index).flatten := by
  induction left generalizing index with
  | zero =>
    have : s.table.length ≤ index := by unfold table_size at h; omega
    refine ⟨fun e => absurd rfl e, ?_⟩
    simp [begin_loop, remaining, end_, List.drop_eq_nil_of_le this]
  | succ left ih =>
    have hlt : index < s.table.length := by unfold table_size at h; omega
    rw [begin_loop]
    by_cases hb : s.table.getD index [] ≠ []
    · rw [if_pos hb]
      refine ⟨fun _ => ⟨rfl, hlt⟩, ?_⟩
      rw [drop_flatten_step s.table _ hlt]
      unfold remaining
      cases hq : s.table.getD index [] with
      | nil => exact absurd hq hb
      | cons k rest => simp
    · rw [if_neg hb]
      have hb1 : s.table.getD index [] = [] := by
        by_contra e; exact hb e
      have := ih (index + 1) (by omega)
      refine ⟨this.1, ?_⟩
      rw [this.2, drop_flatten_step s.table _ hlt, hb1]
      rfl

theorem begin_spec (s : ADS_set Key) :
    Live s s.begin ∧ remaining s s.begin = keys s := by
  have := begin_loop_spec s s.table_size 0 (by omega)
  simpa [begin, keys] using this

/-- After `i` applications of `operator++`, `i` at most the number of keys left, the
traversal has lost its first `i` keys. -/
theorem iterate_inc (s : ADS_set Key) (i : Nat) (it : Iterator Key) (hl : Live s it)
    (hi : i ≤ (remaining s it).length) :
    Live s ((Iterator.inc s)^[i] it) ∧
    remaining s ((Iterator.inc s)^[i] it) = (remaining s it).drop i := by
  induction i generalizing it with
  | zero => exact ⟨hl, rfl⟩
  | succ i ih =>
    rw [Function.iterate_succ_apply]
    cases hr : remaining s it with
    | nil => rw [hr] at hi; simp at hi
    | cons k L =>
      obtain ⟨a, b⟩ := inc_step s it hl k L hr
      rw [hr] at hi
      obtain ⟨c, d⟩ := ih (it.inc s) a (by rw [b]; simpa using hi)
      exact ⟨c, by rw [d, b]; rfl⟩

/-- The range-based `for` loop yields the keys left, and ends within the bound. -/
theorem for_range_remaining (s : ADS_set Key) (left : Nat) (it : Iterator Key)
    (hl : Live s it) (h : (remaining s it).length < left) :
    for_range s left it = remaining s it := by
  induction left generalizing it with
  | zero => omega
  | succ left ih =>
    rw [for_range]
    cases hp : it.it_pos with
    | nil => simp [(remaining_nil_iff s it).mpr hp]
    | cons k rest =>
      have hr : remaining s it = k :: (rest ++ (s.table.drop (it.it_index + 1)).flatten) := by
        unfold remaining; rw [hp]; rfl
      obtain ⟨a, b⟩ := inc_step s it hl k _ hr
      simp only
      rw [ih (it.inc s) a (by rw [b]; rw [hr] at h; simpa using h), b, hr]

/-- A range-based `for` loop over a table visits the chains of buckets
`0, 1, ...` in turn, each from its head on. -/
theorem elements_eq_keys (s : ADS_set Key) : elements s = keys s := by
  unfold elements
  obtain ⟨a, b⟩ := begin_spec s
  rw [for_range_remaining s _ _ a (by rw [b]; unfold keys; omega), b]

end ADS_set

/-! ## Reserve, range insertion, constructors -/

namespace ADS_set

variable {Key : Type} [DecidableEq Key]

theorem reserve_loop_exit_aux (bound n c : Nat)
    (h : 10 * n ≤ 7 * (2 ^ bound * (c + 1) - 1)) : 10 * n ≤ 7 * reserve_loop bound n c := by
  induction bound generalizing c with
  | zero => simpa [reserve_loop] using h
  | succ b ih =>
    rw [reserve_loop]
    by_cases hc : 10 * n > 7 * (c * 2 + 1)
    · rw [if_pos hc]
      apply ih
      have : 2 ^ b * (c * 2 + 1 + 1) = 2 ^ (b + 1) * (c + 1) := by ring
      rw [this]; exact h
    · rw [if_neg hc]; omega

/-- The loop of `reserve` ends within `n + 1` iterations, with a capacity under which
`n` keys respect the load limit. -/
theorem reserve_loop_exit (n c : Nat) : 10 * n ≤ 7 * reserve_loop (n + 1) n c := by
  apply reserve_loop_exit_aux
  have h1 : n < 2 ^ n := Nat.lt_two_pow n
  have h2 : 2 ^ (n + 1) = 2 * 2 ^ n := by ring
  have h3 : 2 ^ (n + 1) ≤ 2 ^ (n + 1) * (c + 1) := Nat.le_mul_of_pos_right _ (by omega)
  omega

theorem reserve_loop_ge (bound n c : Nat) : c ≤ reserve_loop bound n c := by
  induction bound generalizing c with
  | zero => simp [reserve_loop]
  | succ b ih =>
    rw [reserve_loop]
    by_cases hc : 10 * n > 7 * (c * 2 + 1)
    · rw [if_pos hc]
      exact Nat.le_trans (by omega) (ih (c * 2 + 1))
    · rw [if_neg hc]; omega

theorem reserve_eq (hasher : Key → Nat) (fuel : Nat) (s : ADS_set Key) (n : Nat)
    (h3 : s.number_of_elements = (keys s).length)
    (h4 : 10 * s.number_of_elements ≤ 7 * s.table_size) :
    reserve hasher fuel s n = some (reserve_state hasher s n) := by
  unfold reserve reserve_state
  by_cases hn : 10 * n > 7 * s.table_size
  · rw [if_pos hn, if_pos hn]
    apply rehash_fit
    have := reserve_loop_ge (n + 1) n s.table_size
    omega
  · rw [if_neg hn, if_neg hn]

theorem reserve_state_props (hasher : Key → Nat) (s : ADS_set Key) (n : Nat)
    (h : Inv hasher s) :
    Inv hasher (reserve_state hasher s n) ∧
    (keys (reserve_state hasher s n)).Perm (keys s) ∧
    (reserve_state hasher s n).number_of_elements = s.number_of_elements ∧
    10 * n ≤ 7 * (reserve_state hasher s n).table_size ∧
    s.table_size ≤ (reserve_state hasher s n).table_size := by
  obtain ⟨hs, hp, h2, h3, h4⟩ := h
  unfold reserve_state
  by_cases hn : 10 * n > 7 * s.table_size
  · rw [if_pos hn]
    have hge := reserve_loop_ge (n + 1) n s.table_size
    have hex := reserve_loop_exit n s.table_size
    obtain ⟨a, b, c, d⟩ := rebuilt hasher (keys s) (reserve_loop (n + 1) n s.table_size)
      (by omega)
    refine ⟨⟨by omega, c, d.nodup_iff.mpr h2, by rw [b, d.length_eq], by omega⟩, d,
      by omega, by omega, by omega⟩
  · rw [if_neg hn]
    exact ⟨⟨hs, hp, h2, h3, h4⟩, List.Perm.refl _, rfl, by omega, by omega⟩

/-- Every successful `insert_direct` on a table that satisfies I3-I5 leaves
`insert_direct_state`, whatever the fuel. -/
theorem insert_direct_some (hasher : Key → Nat) (fuel : Nat) (s : ADS_set Key) (k : Key)
    (hs : 1 ≤ s.table_size) (h3 : s.number_of_elements = (keys s).length)
    (h4 : 10 * s.number_of_elements ≤ 7 * s.table_size)
    (r : ADS_set Key × List Key) (hr : insert_direct hasher fuel s k = some r) :
    r.1 = insert_direct_state hasher s k := by
  cases fuel with
  | zero =>
    rw [insert_direct] at hr
    by_cases hov : 7 * (link hasher s k).table_size < 10 * (link hasher s k).number_of_elements
    · rw [if_pos hov] at hr; cases hr
    · rw [if_neg hov] at hr
      rw [link_table_size, link_number] at hov
      unfold insert_direct_state
      rw [if_neg hov]
      cases hr; rfl
  | succ f =>
    rw [insert_direct_eq hasher f s k hs h3 h4] at hr
    cases hr; rfl

/-- Membership after `insert(k)`, for every fuel that lets the call return. -/
theorem insert_some (hasher : Key → Nat) (fuel : Nat) (s : ADS_set Key) (k : Key)
    (h : Inv hasher s) (r : ADS_set Key × Iterator Key × Bool)
    (hr : insert hasher fuel s k = some r) :
    Inv hasher r.1 ∧ (∀ j, j ∈ keys r.1 ↔ j = k ∨ j ∈ keys s) ∧
    s.table_size ≤ r.1.table_size := by
  unfold insert at hr
  rw [count_eq hasher s h.1 h.2.1 k] at hr
  by_cases hk : k ∈ keys s
  · simp only [hk, if_true, ne_eq, one_ne_zero, not_false_eq_true] at hr
    cases hr
    refine ⟨h, fun j => ⟨fun hj => Or.inr hj, ?_⟩, Nat.le_refl _⟩
    rintro (h1 | h1)
    · rw [h1]; exact hk
    · exact h1
  · simp only [hk, if_false, ne_eq, not_true_eq_false] at hr
    cases hd : insert_direct hasher fuel s k with
    | none => rw [hd] at hr; cases hr
    | some q =>
      rw [hd] at hr
      have hq := insert_direct_some hasher fuel s k h.1 h.2.2.2.1 h.2.2.2.2 q hd
      cases hr
      simp only
      rw [hq]
      have hp := insert_direct_state_props hasher s k h.1 h.2.1 h.2.2.2.1 h.2.2.2.2
      refine ⟨insert_direct_state_inv hasher s k h hk, fun j => ?_, ?_⟩
      · rw [hp.2.2.2.2.1.mem_iff, List.mem_cons]
      · unfold insert_direct_state
        split
        · rw [(rebuilt hasher _ (s.table_size * 2) (by have := h.1; omega)).1]; omega
        · rw [link_table_size]

theorem insert_returns (hasher : Key → Nat) (fuel : Nat) (s : ADS_set Key) (k : Key)
    (h : Inv hasher s) : ∃ r, insert hasher (fuel + 1) s k = some r := by
  rw [insert_eq hasher fuel s k h]
  split
  · exact ⟨_, rfl⟩
  · exact ⟨_, rfl⟩

/-- Range insertion on a table that satisfies the invariants returns for every
fuel, keeps the invariants, stores exactly the old keys and the keys of the range,
and does not lower the capacity. -/
theorem insert_range_spec (hasher : Key → Nat) (fuel : Nat) (L : List Key)
    (s : ADS_set Key) (h : Inv hasher s) :
    ∃ r, insert_range hasher fuel s L = some r ∧ Inv hasher r ∧
      (∀ j, j ∈ keys r ↔ j ∈ keys s ∨ j ∈ L) ∧ s.table_size ≤ r.table_size := by
  induction L generalizing s with
  | nil => exact ⟨s, rfl, h, by simp, Nat.le_refl _⟩
  | cons k L ih =>
    rw [insert_range, count_eq hasher s h.1 h.2.1 k]
    by_cases hk : k ∈ keys s
    · simp only [hk, if_true, one_ne_zero, if_false]
      obtain ⟨r, hr, hi, hm, hc⟩ := ih s h
      refine ⟨r, hr, hi, fun j => ?_, hc⟩
      rw [hm j, List.mem_cons]
      constructor
      · rintro (h1 | h1)
        · exact Or.inl h1
        · exact Or.inr (Or.inr h1)
      · rintro (h1 | h1 | h1)
        · exact Or.inl h1
        · rw [h1]; exact Or.inl hk
        · exact Or.inr h1
    · simp only [hk, if_false, if_true]
      rw [reserve_eq hasher fuel s _ h.2.2.2.1 h.2.2.2.2]
      obtain ⟨a, b, c, d, e⟩ := reserve_state_props hasher s (s.number_of_elements + 1) h
      simp only
      rw [insert_direct_fit hasher fuel _ k (by rw [c]; exact d)]
      simp only
      have hk1 : k ∉ keys (reserve_state hasher s (s.number_of_elements + 1)) :=
        fun e1 => hk (b.mem_iff.mp e1)
      have hperm := link_keys_perm hasher (reserve_state hasher s (s.number_of_elements + 1))
        k a.1
      have hinv : Inv hasher
          (link hasher (reserve_state hasher s (s.number_of_elements + 1)) k) := by
        refine ⟨by rw [link_table_size]; exact a.1, link_placed hasher _ k a.1 a.2.1,
          hperm.nodup_iff.mpr (List.nodup_cons.mpr ⟨hk1, a.2.2.1⟩), ?_, ?_⟩
        · rw [link_number, hperm.length_eq, a.2.2.2.1]; rfl
        · rw [link_number, link_table_size, c]; exact d
      obtain ⟨r, hr, hi, hm, hc⟩ := ih _ hinv
      refine ⟨r, hr, hi, fun j => ?_, ?_⟩
      · rw [hm j, hperm.mem_iff, List.mem_cons, List.mem_cons, b.mem_iff]
        constructor
        · rintro ((h1 | h1) | h1)
          · exact Or.inr (Or.inl h1)
          · exact Or.inl h1
          · exact Or.inr (Or.inr h1)
        · rintro (h1 | h1 | h1)
          · exact Or.inl (Or.inr h1)
          · exact Or.inl (Or.inl h1)
          · exact Or.inr h1
      · rw [link_table_size] at hc; omega

theorem ctor_eq (hasher : Key → Nat) (fuel : Nat) (N : Nat) :
    ctor hasher fuel N = some (fresh N : ADS_set Key) := rfl

theorem fresh_inv (hasher : Key → Nat) (N : Nat) (hN : 1 ≤ N) :
    Inv hasher (fresh N : ADS_set Key) := by
  refine ⟨by rw [fresh_table_size]; exact hN, fresh_placed hasher N, ?_, ?_, ?_⟩
  · rw [fresh_keys]; exact List.nodup_nil
  · rw [fresh_keys]; rfl
  · show 10 * 0 ≤ _
    omega

theorem copy_loop_eq (hasher : Key → Nat) (fuel : Nat) (L : List Key) (s : ADS_set Key) :
    copy_loop hasher fuel L s = rehash_chain (insert_direct hasher fuel) L s := by
  induction L generalizing s with
  | nil => rfl
  | cons k L ih =>
    rw [copy_loop, rehash_chain]
    cases insert_direct hasher fuel s k with
    | none => rfl
    | some r => exact ih r.1

/-- The copy constructor returns for every fuel; the copy satisfies the invariants
and holds the keys of the source. -/
theorem ctor_copy_spec (hasher : Key → Nat) (fuel : Nat) (N : Nat) (hN : 1 ≤ N)
    (other : ADS_set Key) (h : Inv hasher other) :
    ∃ c, ctor_copy hasher fuel N other = some c ∧ Inv hasher c ∧
      (keys c).Perm (keys other) ∧ c.number_of_elements = other.number_of_elements := by
  unfold ctor_copy
  rw [ctor_eq]
  simp only
  have hf := fresh_inv hasher N hN
  rw [reserve_eq hasher fuel (fresh N) _ hf.2.2.2.1 hf.2.2.2.2]
  obtain ⟨a, b, c, d, e⟩ := reserve_state_props hasher (fresh N) other.number_of_elements hf
  simp only
  have hc0 : (reserve_state hasher (fresh N : ADS_set Key)
      other.number_of_elements).number_of_elements = 0 := c
  have hk0 : keys (reserve_state hasher (fresh N : ADS_set Key)
      other.number_of_elements) = [] := by
    have := b.length_eq
    rw [fresh_keys] at this
    exact List.length_eq_zero.mp this
  rw [elements_eq_keys, copy_loop_eq,
    rehash_chain_fit hasher fuel (keys other) _
      (by rw [hc0, ← h.2.2.2.1]; omega)]
  obtain ⟨p, q, r, t⟩ := foldl_link hasher (keys other)
    (reserve_state hasher (fresh N) other.number_of_elements) a.1 a.2.1
  rw [hk0, List.append_nil] at t
  rw [hc0] at q
  refine ⟨_, rfl, ⟨by rw [p]; exact a.1, r, t.nodup_iff.mpr h.2.2.1, ?_, ?_⟩, t, ?_⟩
  · rw [q, t.length_eq]; omega
  · rw [q, p, ← h.2.2.2.1]; omega
  · rw [q, h.2.2.2.1]; omega

end ADS_set

/-! ## Reachable tables -/

namespace ADS_set

variable {Key : Type} [DecidableEq Key]

theorem erase_inv (hasher : Key → Nat) (s : ADS_set Key) (k : Key) (h : Inv hasher s) :
    Inv hasher (erase hasher s k).1 ∧
    (∀ j, j ∈ keys (erase hasher s k).1 ↔ j ≠ k ∧ j ∈ keys s) ∧
    (erase hasher s k).1.table_size = s.table_size := by
  rw [erase_eq hasher s k h.1 h.2.1]
  by_cases hk : k ∈ keys s
  · rw [if_pos hk]
    obtain ⟨hi, hperm, hts, _⟩ := erase_state_props hasher s k h hk
    have hnk : k ∉ keys (erase_state hasher s k) :=
      (List.nodup_cons.mp (hperm.nodup_iff.mp h.2.2.1)).1
    refine ⟨hi, fun j => ?_, hts⟩
    rw [hperm.mem_iff, List.mem_cons]
    constructor
    · intro hj
      exact ⟨fun e => hnk (e ▸ hj), Or.inr hj⟩
    · rintro ⟨h1, h2 | h2⟩
      · exact absurd h2 h1
      · exact h2
  · rw [if_neg hk]
    refine ⟨h, fun j => ⟨fun hj => ⟨fun e => hk (e ▸ hj), hj⟩, fun hj => hj.2⟩, rfl⟩

theorem ctor_range_spec (hasher : Key → Nat) (fuel : Nat) (N : Nat) (hN : 1 ≤ N)
    (ilist : List Key) :
    ∃ r, ctor_range hasher fuel N ilist = some r ∧ Inv hasher r ∧
      (∀ j, j ∈ keys r ↔ j ∈ ilist) ∧ N ≤ r.table_size := by
  unfold ctor_range
  rw [ctor_eq]
  obtain ⟨r, hr, hi, hm, hc⟩ := insert_range_spec hasher fuel ilist (fresh N)
    (fresh_inv hasher N hN)
  refine ⟨r, hr, hi, fun j => ?_, by rw [fresh_table_size] at hc; exact hc⟩
  rw [hm j, fresh_keys]
  simp

/-- Every reachable table satisfies I1-I5. -/
theorem reachable_inv (hasher : Key → Nat) (N : Nat) (hN : 1 ≤ N) (s : ADS_set Key)
    (h : Reachable hasher N s) : Inv hasher s := by
  induction h with
  | default fuel s hs =>
    rw [ctor_eq] at hs; cases hs
    exact fresh_inv hasher N hN
  | range fuel ilist s hs =>
    obtain ⟨r, hr, hi, _⟩ := ctor_range_spec hasher fuel N hN ilist
    rw [hr] at hs; cases hs; exact hi
  | copy fuel other s _ hs ih =>
    obtain ⟨c, hc, hi, _⟩ := ctor_copy_spec hasher fuel N hN other ih
    rw [hc] at hs; cases hs; exact hi
  | insert fuel s k r _ hr ih => exact (insert_some hasher fuel s k ih r hr).1
  | insert_range fuel s ilist r _ hr ih =>
    obtain ⟨r1, hr1, hi, _⟩ := insert_range_spec hasher fuel ilist s ih
    rw [hr1] at hr; cases hr; exact hi
  | erase s k _ ih => exact (erase_inv hasher s k ih).1
  | clear fuel s r _ hr _ =>
    unfold clear at hr
    rw [ctor_eq] at hr; cases hr
    exact fresh_inv hasher N hN
  | assign fuel s other r same_object _ _ hr ih1 ih2 =>
    unfold assign at hr
    cases same_object with
    | true => simp only [if_true] at hr; cases hr; exact ih1
    | false =>
      obtain ⟨c, hc, hi, _⟩ := ctor_copy_spec hasher fuel N hN other ih2
      simp only [hc] at hr
      cases hr; exact hi
  | assign_ilist fuel s ilist r _ hr _ =>
    obtain ⟨r1, hr1, hi, _⟩ := ctor_range_spec hasher fuel N hN ilist
    unfold assign_ilist at hr
    rw [hr1] at hr; cases hr; exact hi

/-- C4 (uniqueness, I2).  In every table reachable from a constructor (default,
initializer list or range, copy) by `insert(k)`, range or list insertion, `erase`,
`clear` and the two assignments, no key occurs twice among the nodes of all
chains. -/
theorem reachable_unique (hasher : Key → Nat) (N : Nat) (hN : 1 ≤ N) (s : ADS_set Key)
    (h : Reachable hasher N s) : (s.table.flatten).Nodup :=
  (reachable_inv hasher N hN s h).2.2.1

end ADS_set

namespace ADS_set

variable {Key : Type} [DecidableEq Key]

/-- Witness of C4: the copy of the table built from the list `{3, 7, 11, 18, 7}`. -/
theorem reachable_unique_witness :
    1 ≤ 11 ∧ Reachable id 11 table_4_copy ∧ (table_4_copy.table.flatten).Nodup :=
  have hr : Reachable id 11 table_4_copy :=
    Reachable.copy 1 table_4 table_4_copy
      (Reachable.range 1 [3, 7, 11, 18, 7] table_4 (by decide)) (by decide)
  ⟨by decide, hr, reachable_unique id 11 (by decide) table_4_copy hr⟩

/-! ## Size consistency -/

theorem run_spec (hasher : Key → Nat) (fuel : Nat) (calls : List (Call Key))
    (s : ADS_set Key) (h : Inv hasher s) :
    ∃ r, run hasher (fuel + 1) calls s = some r ∧ Inv hasher r ∧
      (keys r).toFinset = replay calls (keys s).toFinset := by
  induction calls generalizing s with
  | nil => exact ⟨s, rfl, h, rfl⟩
  | cons c calls ih =>
    cases c with
    | insert k =>
      obtain ⟨r, hr⟩ := insert_returns hasher fuel s k h
      obtain ⟨hi, hm, _⟩ := insert_some hasher (fuel + 1) s k h r hr
      obtain ⟨r1, hr1, hi1, hf⟩ := ih r.1 hi
      refine ⟨r1, by rw [run, hr]; exact hr1, hi1, ?_⟩
      rw [hf, replay]
      congr 1
      ext j
      simp [hm j]
    | erase k =>
      obtain ⟨hi, hm, _⟩ := erase_inv hasher s k h
      obtain ⟨r1, hr1, hi1, hf⟩ := ih _ hi
      refine ⟨r1, by rw [run]; exact hr1, hi1, ?_⟩
      rw [hf, replay]
      congr 1
      ext j
      simp [hm j]

/-- C5 (size consistency, I3).  Any sequence of `insert(k)` and `erase(k)` calls on
a default-constructed table returns; in the table it leaves, `size()` is the total
number of nodes of all chains, that number is the cardinality of the finite set
obtained by replaying the calls on the empty set, and `empty()` holds exactly when
that set is empty. -/
theorem size_consistency (hasher : Key → Nat) (N : Nat) (hN : 1 ≤ N) (fuel : Nat)
    (calls : List (Call Key)) :
    ∃ s0 s, ctor hasher (fuel + 1) N = some s0 ∧ run hasher (fuel + 1) calls s0 = some s ∧
      size s = (s.table.map List.length).sum ∧
      (s.table.map List.length).sum = (replay calls ∅).card ∧
      (empty s = true ↔ replay calls ∅ = ∅) := by
  obtain ⟨r, hr, hi, hf⟩ := run_spec hasher fuel calls (fresh N) (fresh_inv hasher N hN)
  rw [fresh_keys] at hf
  have hlen : (keys r).length = (r.table.map List.length).sum := by
    unfold keys; rw [List.length_flatten]
  have hcard : (replay calls (∅ : Finset Key)).card = (keys r).length := by
    have : replay calls (∅ : Finset Key) = (keys r).toFinset := by rw [hf]; rfl
    rw [this, List.toFinset_card_of_nodup hi.2.2.1]
  refine ⟨fresh N, r, rfl, hr, ?_, ?_, ?_⟩
  · unfold size; rw [hi.2.2.2.1, hlen]
  · rw [← hlen, hcard]
  · unfold empty
    rw [decide_eq_true_iff, hi.2.2.2.1, ← hcard, Finset.card_eq_zero]

/-- Witness of C5: `insert(3), insert(7), insert(3), erase(7), erase(5)` on a default
table of capacity 11. -/
theorem size_consistency_witness :
    1 ≤ 11 ∧
    ∃ s0 s, ctor id (0 + 1) 11 = some s0 ∧
      run id (0 + 1) [Call.insert 3, Call.insert 7, Call.insert 3, Call.erase 7,
        Call.erase 5] s0 = some s ∧
      size s = (s.table.map List.length).sum ∧
      (s.table.map List.length).sum =
        (replay [Call.insert 3, Call.insert 7, Call.insert 3, Call.erase 7,
          Call.erase 5] ∅).card ∧
      (empty s = true ↔
        replay [Call.insert 3, Call.insert 7, Call.insert 3, Call.erase 7,
          Call.erase 5] ∅ = ∅) :=
  ⟨by decide, size_consistency id 11 (by decide) 0 _⟩

/-! ## Load factor -/

end ADS_set

namespace ADS_set

variable {Key : Type} [DecidableEq Key]

/-- C7, the code at a failing input.  Seven `insert(k)` calls on a default table of
capacity 11 leave `table_7` (capacity 11, no rehash); the eighth key 5 is absent and
exceeds the load limit (`7 * 11 < 10 * 8`); the doubling-plus-one loop started at 11
gives 23 for 8 keys, and range insertion of the same key, which calls `reserve`
before `insert_direct`, leaves capacity 23; but `insert(5)`, which does not call
`reserve`, leaves capacity 22, not 23. -/
theorem insert_growth_counterexample :
    run id 1 [Call.insert 3, Call.insert 7, Call.insert 11, Call.insert 18,
      Call.insert 1, Call.insert 2, Call.insert 4] (fresh 11) = some table_7 ∧
    Inv id table_7 ∧ 5 ∉ keys table_7 ∧
    7 * table_7.table_size < 10 * (size table_7 + 1) ∧
    reserve_loop 9 8 11 = 23 ∧
    (insert_range id 0 table_7 [5]).map table_size = some 23 ∧
    insert id 1 table_7 5 = some (table_8, find id table_8 5, true) ∧
    table_8.table_size = 22 ∧
    ¬ ∃ r, insert id 1 table_7 5 = some r ∧ r.1.table_size = 23 := by
  refine ⟨by decide, by decide, by decide, by decide, by decide, by decide, by decide,
    by decide, ?_⟩
  rintro ⟨r, hr, h23⟩
  have h8 : insert id 1 table_7 5 = some (table_8, find id table_8 5, true) := by decide
  rw [h8] at hr
  cases hr
  revert h23
  decide

/-- What `insert(k)` does in the code, which leaves out the `reserve(size + 1)` that
range insertion and the copy constructor perform before `insert_direct`: on a table
that satisfies the invariants, `insert(k)` of a key that is not stored returns; when
`size + 1` respects the load limit the new node is linked and the capacity stays;
otherwise the new node is linked first and the load check of `insert_direct` then
rebuilds the linked table by one `rehash` (no nested one) at twice the capacity. -/
theorem insert_growth (hasher : Key → Nat) (fuel : Nat) (s : ADS_set Key) (k : Key)
    (h : Inv hasher s) (hk : k ∉ keys s) :
    ∃ r, insert hasher (fuel + 1) s k = some r ∧
      (10 * (size s + 1) ≤ 7 * s.table_size →
        r.1 = link hasher s k ∧ r.1.table_size = s.table_size) ∧
      (7 * s.table_size < 10 * (size s + 1) →
        rehash hasher 0 (link hasher s k) (s.table_size * 2) = some r.1 ∧
        r.1.table_size = s.table_size * 2 ∧
        10 * (size s + 1) ≤ 7 * r.1.table_size) := by
  rw [insert_eq hasher fuel s k h, if_neg hk]
  refine ⟨_, rfl, fun hfit => ?_, fun hov => ?_⟩
  · have hn : ¬ 7 * s.table_size < 10 * (s.number_of_elements + 1) := by
      unfold size at hfit; omega
    simp only [insert_direct_state, if_neg hn, link_table_size, and_self]
  · have hov1 : 7 * s.table_size < 10 * (s.number_of_elements + 1) := hov
    have hperm := link_keys_perm hasher s k h.1
    have hlen : (keys (link hasher s k)).length = s.number_of_elements + 1 := by
      rw [hperm.length_eq, h.2.2.2.1]; simp
    have h4 := h.2.2.2.2
    have hs := h.1
    have hfit : 10 * (s.number_of_elements + 1) ≤ 7 * (s.table_size * 2) := by
      rcases Nat.lt_or_ge s.table_size 2 with h2 | h2
      · omega
      · omega
    simp only [insert_direct_state, if_pos hov1]
    refine ⟨rehash_fit hasher 0 (link hasher s k) _ (by rw [hlen]; exact hfit), ?_, ?_⟩
    · exact (rebuilt hasher _ _ (by omega)).1
    · rw [(rebuilt hasher _ _ (by omega)).1]; exact hfit

/-- An instance of `insert_growth`: `insert(5)` on `table_7`; without a rehash the
call does not return, with one it leaves `table_8`. -/
theorem insert_growth_witness :
    Inv id table_7 ∧ 5 ∉ keys table_7 ∧
    insert_direct id 0 table_7 5 = none ∧
    insert id 1 table_7 5 = some (table_8, find id table_8 5, true) ∧
    ∃ r, insert id (0 + 1) table_7 5 = some r ∧
      (10 * (size table_7 + 1) ≤ 7 * table_7.table_size →
        r.1 = link id table_7 5 ∧ r.1.table_size = table_7.table_size) ∧
      (7 * table_7.table_size < 10 * (size table_7 + 1) →
        rehash id 0 (link id table_7 5) (table_7.table_size * 2) = some r.1 ∧
        r.1.table_size = table_7.table_size * 2 ∧
        10 * (size table_7 + 1) ≤ 7 * r.1.table_size) :=
  ⟨by decide, by decide, by decide, by decide,
    insert_growth id 0 table_7 5 (by decide) (by decide)⟩

end ADS_set

/-! ## Iteration completeness -/

namespace ADS_set

variable {Key : Type} [DecidableEq Key]

theorem operator_eq_end (it : Iterator Key) :
    Iterator.operator_eq it end_ = true ↔ it.it_pos = [] := by
  simp [Iterator.operator_eq, end_]

theorem count_keys (hasher : Key → Nat) (s : ADS_set Key) (h : Inv hasher s) (k : Key) :
    (keys s).count k = count hasher s k := by
  rw [count_eq hasher s h.1 h.2.1 k, List.count_eq_of_nodup h.2.2.1]

/-- C8 (iteration completeness).  On a table that satisfies the invariants, the
iterator obtained from `begin()` by `i < size()` applications of `operator++`
differs from `end()`, after exactly `size()` applications it equals `end()`, the
keys read on the way contain every key `k` exactly `count(k)` times (once when
stored, never otherwise), and `begin() == end()` exactly when `empty()`. -/
theorem iteration_complete (hasher : Key → Nat) (s : ADS_set Key) (h : Inv hasher s) :
    (∀ i, i < size s →
      Iterator.operator_ne ((Iterator.inc s)^[i] s.begin) end_ = true) ∧
    Iterator.operator_eq ((Iterator.inc s)^[size s] s.begin) end_ = true ∧
    (∀ k, ((List.range (size s)).filterMap
        (fun i => Iterator.deref ((Iterator.inc s)^[i] s.begin))).count k =
      count hasher s k) ∧
    (Iterator.operator_eq s.begin end_ = true ↔ empty s = true) := by
  obtain ⟨hl, hb⟩ := begin_spec s
  have hn : size s = (keys s).length := h.2.2.2.1
  have hrem : ∀ i, i ≤ size s →
      remaining s ((Iterator.inc s)^[i] s.begin) = (keys s).drop i := by
    intro i hi
    have := (iterate_inc s i s.begin hl (by rw [hb, ← hn]; exact hi)).2
    rw [this, hb]
  have hnull : ∀ i, i ≤ size s →
      (((Iterator.inc s)^[i] s.begin).it_pos = [] ↔ size s ≤ i) := by
    intro i hi
    rw [← remaining_nil_iff s, hrem i hi, List.drop_eq_nil_iff, hn]
  refine ⟨fun i hi => ?_, ?_, fun k => ?_, ?_⟩
  · have h1 : ¬ ((Iterator.inc s)^[i] s.begin).it_pos = [] := fun e =>
      absurd ((hnull i (by omega)).mp e) (by omega)
    unfold Iterator.operator_ne
    rw [Bool.not_eq_true', ← Bool.not_eq_true, operator_eq_end]
    exact h1
  · rw [operator_eq_end, hnull _ (Nat.le_refl _)]
  · have hseq : (List.range (size s)).map
        (fun i => Iterator.deref ((Iterator.inc s)^[i] s.begin)) = (keys s).map some := by
      apply List.ext_getElem
      · simp [hn]
      · intro i h1 h2
        have hi : i < size s := by simpa using h1
        have hik : i < (keys s).length := by rw [← hn]; exact hi
        simp only [List.getElem_map, List.getElem_range]
        rw [← remaining_head, hrem i (by omega), List.head?_drop,
          List.getElem?_eq_getElem hik]
    have hseq1 : (List.range (size s)).filterMap
        (fun i => Iterator.deref ((Iterator.inc s)^[i] s.begin)) = keys s := by
      have h1 : (List.range (size s)).filterMap
          (fun i => Iterator.deref ((Iterator.inc s)^[i] s.begin)) =
          ((List.range (size s)).map
            (fun i => Iterator.deref ((Iterator.inc s)^[i] s.begin))).filterMap id := by
        rw [List.filterMap_map]; rfl
      rw [h1, hseq, List.filterMap_map]
      exact List.filterMap_some (keys s)
    rw [hseq1]
    exact count_keys hasher s h k
  · have h0 := hnull 0 (Nat.zero_le _)
    simp only [Function.iterate_zero, id_eq] at h0
    rw [operator_eq_end, h0]
    unfold empty size
    rw [decide_eq_true_iff]
    omega

/-- Witness of C8: the table `{3, 7, 11, 18}`, whose bucket 7 holds two nodes. -/
theorem iteration_complete_witness :
    Inv id table_4 ∧
    elements table_4 = [11, 3, 18, 7] ∧
    ((∀ i, i < size table_4 →
        Iterator.operator_ne ((Iterator.inc table_4)^[i] table_4.begin) end_ = true) ∧
      Iterator.operator_eq ((Iterator.inc table_4)^[size table_4] table_4.begin) end_
        = true ∧
      (∀ k, ((List.range (size table_4)).filterMap
          (fun i => Iterator.deref ((Iterator.inc table_4)^[i] table_4.begin))).count
            k = count id table_4 k) ∧
      (Iterator.operator_eq table_4.begin end_ = true ↔ empty table_4 = true)) :=
  ⟨by decide, by decide, iteration_complete id table_4 (by decide)⟩

/-! ## Equality -/

theorem find_position_ne_nil (hasher : Key → Nat) (s : ADS_set Key) (h : Inv hasher s)
    (k : Key) : find_position hasher s k ≠ [] ↔ k ∈ keys s := by
  rw [mem_keys_iff hasher s h.1 h.2.1 k, Ne, find_position_eq_nil, not_not]

theorem operator_eq_iff (hasher : Key → Nat) (a b : ADS_set Key) (ha : Inv hasher a)
    (hb : Inv hasher b) :
    operator_eq hasher a b = true ↔ (keys a).Perm (keys b) := by
  unfold operator_eq
  rw [elements_eq_keys]
  constructor
  · intro h
    by_cases hne : a.number_of_elements ≠ b.number_of_elements
    · rw [if_pos hne] at h; cases h
    · rw [if_neg hne, List.all_eq_true] at h
      have hsub : keys b ⊆ keys a := fun x hx =>
        (find_position_ne_nil hasher a ha x).mp (of_decide_eq_true (h x hx))
      have hlen : (keys a).length ≤ (keys b).length := by
        rw [← ha.2.2.2.1, ← hb.2.2.2.1]; omega
      exact ((hb.2.2.1.subperm hsub).perm_of_length_le hlen).symm
  · intro hperm
    have hne : ¬ a.number_of_elements ≠ b.number_of_elements := by
      rw [ha.2.2.2.1, hb.2.2.2.1, hperm.length_eq]; simp
    rw [if_neg hne, List.all_eq_true]
    intro x hx
    exact decide_eq_true ((find_position_ne_nil hasher a ha x).mpr (hperm.mem_iff.mpr hx))

theorem perm_iff_count (hasher : Key → Nat) (a b : ADS_set Key) (ha : Inv hasher a)
    (hb : Inv hasher b) :
    (keys a).Perm (keys b) ↔ ∀ k, count hasher a k = count hasher b k := by
  rw [List.perm_iff_count]
  constructor
  · intro h k
    rw [← count_keys hasher a ha, ← count_keys hasher b hb]; exact h k
  · intro h k
    rw [count_keys hasher a ha, count_keys hasher b hb]; exact h k

/-- C9 (equality is set equality).  For tables that satisfy the invariants,
`a == b` holds exactly when `count` agrees on every key; `operator==` is reflexive
and symmetric, and `operator!=` is its negation. -/
theorem equality_is_set_equality (hasher : Key → Nat) (a b : ADS_set Key)
    (ha : Inv hasher a) (hb : Inv hasher b) :
    (operator_eq hasher a b = true ↔ ∀ k, count hasher a k = count hasher b k) ∧
    operator_eq hasher a a = true ∧
    operator_eq hasher a b = operator_eq hasher b a ∧
    operator_ne hasher a b = !(operator_eq hasher a b) := by
  refine ⟨?_, ?_, ?_, rfl⟩
  · rw [operator_eq_iff hasher a b ha hb, perm_iff_count hasher a b ha hb]
  · rw [operator_eq_iff hasher a a ha ha]
  · rw [Bool.eq_iff_iff, operator_eq_iff hasher a b ha hb, operator_eq_iff hasher b a hb ha]
    exact ⟨List.Perm.symm, List.Perm.symm⟩

/-- Witness of C9: `table_4` and its copy differ in the order of a chain and are
equal; the three insertion orders of `{5, 9, 12}` build tables that are equal. -/
theorem equality_is_set_equality_witness :
    Inv id table_4 ∧ Inv id table_4_copy ∧ table_4 ≠ table_4_copy ∧
    ((operator_eq id table_4 table_4_copy = true ↔
        ∀ k, count id table_4 k = count id table_4_copy k) ∧
      operator_eq id table_4 table_4 = true ∧
      operator_eq id table_4 table_4_copy = operator_eq id table_4_copy table_4 ∧
      operator_ne id table_4 table_4_copy = !(operator_eq id table_4 table_4_copy)) ∧
    operator_eq id table_4 table_4_copy = true ∧
    run id 1 [Call.insert 5, Call.insert 9, Call.insert 12] (fresh 11)
      = some table_5_9_12 ∧
    run id 1 [Call.insert 12, Call.insert 5, Call.insert 9] (fresh 11)
      = some table_5_9_12 ∧
    run id 1 [Call.insert 9, Call.insert 12, Call.insert 5] (fresh 11)
      = some table_5_9_12 ∧
    operator_eq id table_5_9_12 table_5_9_12 = true :=
  ⟨by decide, by decide, by decide,
    equality_is_set_equality id table_4 table_4_copy (by decide) (by decide),
    by decide, by decide, by decide, by decide, by decide⟩

/-! ## Copy -/

end ADS_set

/-! ## Nested rehashes -/

namespace ADS_set

variable {Key : Type} [DecidableEq Key]

/-- The re-insertion loop of a rehash, given that `insert_direct` with the same fuel
returns on every table whose node count plus one fits `capacity * 2 ^ fuel`. -/
theorem rehash_chain_total (hasher : Key → Nat) (f : Nat)
    (ih : ∀ (s : ADS_set Key) (k : Key), 1 ≤ s.table_size →
      s.number_of_elements = (keys s).length →
      10 * (s.number_of_elements + 1) ≤ 7 * s.table_size * 2 ^ f →
      ∃ r, insert_direct hasher f s k = some r ∧ s.table_size ≤ r.1.table_size ∧
        r.1.number_of_elements = (keys r.1).length ∧
        (keys r.1).Perm (k :: keys s) ∧
        10 * r.1.number_of_elements ≤ 7 * r.1.table_size ∧
        (Placed hasher s → Placed hasher r.1))
    (L : List Key) (s : ADS_set Key) (hs : 1 ≤ s.table_size)
    (h3 : s.number_of_elements = (keys s).length)
    (hb : 10 * (s.number_of_elements + L.length) ≤ 7 * s.table_size * 2 ^ f) :
    ∃ r, rehash_chain (insert_direct hasher f) L s = some r ∧
      s.table_size ≤ r.table_size ∧
      r.number_of_elements = (keys r).length ∧
      (keys r).Perm (L ++ keys s) ∧
      (10 * s.number_of_elements ≤ 7 * s.table_size →
        10 * r.number_of_elements ≤ 7 * r.table_size) ∧
      (Placed hasher s → Placed hasher r) := by
  induction L generalizing s with
  | nil => exact ⟨s, rfl, Nat.le_refl _, h3, List.Perm.refl _, fun h => h, fun h => h⟩
  | cons k L ihL =>
    simp only [List.length_cons] at hb
    obtain ⟨r1, hr1, hc1, h31, hp1, h41, hpl1⟩ := ih s k hs h3 (by linarith)
    have hn1 : r1.1.number_of_elements = s.number_of_elements + 1 := by
      rw [h31, hp1.length_eq, h3]; rfl
    have hmono : 7 * s.table_size * 2 ^ f ≤ 7 * r1.1.table_size * 2 ^ f :=
      Nat.mul_le_mul_right _ (Nat.mul_le_mul_left _ hc1)
    obtain ⟨r, hr, hc, h3r, hpr, h4r, hplr⟩ := ihL r1.1 (by omega) h31
      (by rw [hn1]; linarith)
    refine ⟨r, by rw [rehash_chain, hr1]; exact hr, by omega, h3r, ?_, fun _ => h4r h41,
      fun h => hplr (hpl1 h)⟩
    refine hpr.trans ?_
    refine (hp1.append_left L).trans ?_
    exact List.perm_middle

/-- With fuel `f`, `insert_direct` returns on every table with capacity at least
one whose counter is exact (I3) and for which `size + 1` respects the load limit at
`capacity * 2 ^ f`; the table it leaves has a capacity at least as large, an exact
counter, the old keys and `k`, the load limit respected, and I1 if it held. -/
theorem insert_direct_total (hasher : Key → Nat) (f : Nat) :
    ∀ (s : ADS_set Key) (k : Key), 1 ≤ s.table_size →
      s.number_of_elements = (keys s).length →
      10 * (s.number_of_elements + 1) ≤ 7 * s.table_size * 2 ^ f →
      ∃ r, insert_direct hasher f s k = some r ∧ s.table_size ≤ r.1.table_size ∧
        r.1.number_of_elements = (keys r.1).length ∧
        (keys r.1).Perm (k :: keys s) ∧
        10 * r.1.number_of_elements ≤ 7 * r.1.table_size ∧
        (Placed hasher s → Placed hasher r.1) := by
  have hfit : ∀ (g : Nat) (s : ADS_set Key) (k : Key), 1 ≤ s.table_size →
      s.number_of_elements = (keys s).length →
      10 * (s.number_of_elements + 1) ≤ 7 * s.table_size →
      ∃ r, insert_direct hasher g s k = some r ∧ s.table_size ≤ r.1.table_size ∧
        r.1.number_of_elements = (keys r.1).length ∧
        (keys r.1).Perm (k :: keys s) ∧
        10 * r.1.number_of_elements ≤ 7 * r.1.table_size ∧
        (Placed hasher s → Placed hasher r.1) := by
    intro g s k hs h3 hb
    refine ⟨_, insert_direct_fit hasher g s k hb, ?_, ?_, link_keys_perm hasher s k hs, ?_,
      fun hp => link_placed hasher s k hs hp⟩
    · simp only [link_table_size]; exact Nat.le_refl _
    · simp only [link_number, (link_keys_perm hasher s k hs).length_eq, h3,
        List.length_cons]
    · simp only [link_number, link_table_size]; exact hb
  induction f with
  | zero =>
    intro s k hs h3 hb
    exact hfit 0 s k hs h3 (by simpa using hb)
  | succ f ih =>
    intro s k hs h3 hb
    by_cases hov : 7 * s.table_size < 10 * (s.number_of_elements + 1)
    · have hov1 : 7 * (link hasher s k).table_size <
          10 * (link hasher s k).number_of_elements := by
        rw [link_table_size, link_number]; exact hov
      have hperm := link_keys_perm hasher s k hs
      have hlen : (keys (link hasher s k)).length = s.number_of_elements + 1 := by
        rw [hperm.length_eq, h3]; rfl
      have hpow : 7 * (s.table_size * 2) * 2 ^ f = 7 * s.table_size * 2 ^ (f + 1) := by
        ring
      obtain ⟨r, hr, hc, h3r, hpr, h4r, hplr⟩ := rehash_chain_total hasher f ih
        (keys (link hasher s k)) (fresh (s.table_size * 2))
        (by rw [fresh_table_size]; omega) (by rw [fresh_keys]; rfl)
        (by
          rw [fresh_table_size, hlen, hpow]
          show 10 * (0 + (s.number_of_elements + 1)) ≤ _
          linarith)
      rw [fresh_table_size] at hc
      rw [fresh_keys, List.append_nil] at hpr
      refine ⟨(r, r.table.getD (hash hasher s k) []), ?_, by simp only; omega, h3r,
        hpr.trans hperm, ?_, fun _ => hplr (fresh_placed hasher _)⟩
      · rw [insert_direct, if_pos hov1, rehash_buckets_flatten]
        have hr1 : rehash_chain (insert_direct hasher f) (link hasher s k).table.flatten
            (fresh ((link hasher s k).table_size * 2)) = some r := by
          rw [link_table_size]; exact hr
        rw [hr1]
      · exact h4r (by show 10 * 0 ≤ _; omega)
    · exact hfit (f + 1) s k hs h3 (by omega)

/-- With fuel `f`, `rehash(n)` for `n >= 1` returns on every table whose node count
respects the load limit at `n * 2 ^ f`; it leaves capacity at least `n`, an exact
counter, I1, the load limit respected and the same keys. -/
theorem rehash_total (hasher : Key → Nat) (f : Nat) (s : ADS_set Key) (n : Nat)
    (hn : 1 ≤ n) (hb : 10 * (keys s).length ≤ 7 * n * 2 ^ f) :
    ∃ r, rehash hasher f s n = some r ∧ n ≤ r.table_size ∧
      r.number_of_elements = (keys r).length ∧ (keys r).Perm (keys s) ∧
      10 * r.number_of_elements ≤ 7 * r.table_size ∧ Placed hasher r := by
  obtain ⟨r, hr, hc, h3r, hpr, h4r, hplr⟩ := rehash_chain_total hasher f
    (insert_direct_total hasher f) (keys s) (fresh n)
    (by rw [fresh_table_size]; exact hn) (by rw [fresh_keys]; rfl)
    (by
      rw [fresh_table_size]
      show 10 * (0 + (keys s).length) ≤ _
      linarith)
  rw [fresh_table_size] at hc
  rw [fresh_keys, List.append_nil] at hpr
  refine ⟨r, ?_, hc, h3r, hpr, h4r (by show 10 * 0 ≤ _; omega), hplr (fresh_placed hasher n)⟩
  unfold rehash
  rw [rehash_buckets_flatten]
  exact hr

theorem load_pow (m c : Nat) (hc : 1 ≤ c) : 10 * m ≤ 7 * c * 2 ^ m := by
  have h1 : m + 1 ≤ 2 ^ m := Nat.lt_two_pow m
  have h2 : 2 ^ m ≤ c * 2 ^ m := Nat.le_mul_of_pos_left _ (by omega)
  have h3 : 7 * c * 2 ^ m = 7 * (c * 2 ^ m) := by ring
  rcases Nat.eq_zero_or_pos m with h0 | h0
  · rw [h0]; omega
  · have h4 : 2 * m ≤ 2 ^ m := by
      obtain ⟨j, hj⟩ : ∃ j, m = j + 1 := ⟨m - 1, by omega⟩
      rw [hj, pow_succ]
      have := Nat.lt_two_pow j
      omega
    omega

end ADS_set

/-! ## Construction from a list, clear, bucket placement -/

namespace ADS_set

variable {Key : Type} [DecidableEq Key]

/-- C11 (construction from a key list).  For `N >= 1` the initializer-list (or
range) constructor returns on every list `L`; the table has `size()` equal to the
number of distinct keys of `L`, and `count(k) == 1` exactly for the keys of `L`
(`count(k) == 0` for the others). -/
theorem ctor_range_distinct (hasher : Key → Nat) (fuel : Nat) (N : Nat) (hN : 1 ≤ N)
    (L : List Key) :
    ∃ s, ctor_range hasher fuel N L = some s ∧
      size s = L.toFinset.card ∧
      (∀ k, count hasher s k = 1 ↔ k ∈ L) ∧
      (∀ k, count hasher s k = 0 ↔ k ∉ L) := by
  obtain ⟨s, hs, hi, hm, _⟩ := ctor_range_spec hasher fuel N hN L
  have hset : (keys s).toFinset = L.toFinset := by
    ext j; simp [hm j]
  refine ⟨s, hs, ?_, fun k => ?_, fun k => ?_⟩
  · unfold size
    rw [hi.2.2.2.1, ← List.toFinset_card_of_nodup hi.2.2.1, hset]
  · rw [count_eq hasher s hi.1 hi.2.1 k, ← hm k]
    by_cases hk : k ∈ keys s
    · simp [hk]
    · simp [hk]
  · rw [count_eq hasher s hi.1 hi.2.1 k, ← hm k]
    by_cases hk : k ∈ keys s
    · simp [hk]
    · simp [hk]

/-- Witness of C11: the list `{1, 2, 2, 3}` gives `size() == 3`. -/
theorem ctor_range_distinct_witness :
    1 ≤ 11 ∧ ctor_range id 0 11 [1, 2, 2, 3] = some table_1_2_3 ∧ size table_1_2_3 = 3 ∧
    ∃ s, ctor_range id 0 11 [1, 2, 2, 3] = some s ∧
      size s = [1, 2, 2, 3].toFinset.card ∧
      (∀ k, count id s k = 1 ↔ k ∈ [1, 2, 2, 3]) ∧
      (∀ k, count id s k = 0 ↔ k ∉ [1, 2, 2, 3]) :=
  ⟨by decide, by decide, by decide, ctor_range_distinct id 0 11 (by decide) [1, 2, 2, 3]⟩

/-- C12 (clear).  For `N >= 1`, `clear()` returns on every table, whatever it holds
and whatever the fuel; afterwards `size() == 0`, `empty()` is true, `count(k) == 0`
for every key, `begin() == end()`, the capacity is `N`, and every bucket is empty:
the state is the one of a default-constructed table. -/
theorem clear_resets (hasher : Key → Nat) (fuel : Nat) (N : Nat) (hN : 1 ≤ N)
    (s : ADS_set Key) :
    ∃ r, clear hasher fuel N s = some r ∧
      size r = 0 ∧ empty r = true ∧ (∀ k, count hasher r k = 0) ∧
      Iterator.operator_eq r.begin end_ = true ∧
      r.table_size = N ∧ (∀ i, r.table.getD i [] = []) ∧
      ctor hasher fuel N = some r := by
  have hi := fresh_inv hasher N hN
  refine ⟨fresh N, rfl, rfl, rfl, fun k => ?_, ?_, fresh_table_size N, fun i => ?_, rfl⟩
  · rw [count_eq hasher _ hi.1 hi.2.1 k, fresh_keys]; simp
  · rw [operator_eq_end, ← remaining_nil_iff (fresh N), (begin_spec (fresh N)).2, fresh_keys]
  · simp only [fresh, List.getD_eq_getElem?_getD, List.getElem?_replicate]
    split <;> rfl

/-- Witness of C12: `clear()` on `table_8` (capacity 22) with `N = 11`. -/
theorem clear_resets_witness :
    1 ≤ 11 ∧ clear id 0 11 table_8 = some (fresh 11) ∧
    ∃ r, clear id 0 11 table_8 = some r ∧
      size r = 0 ∧ empty r = true ∧ (∀ k, count id r k = 0) ∧
      Iterator.operator_eq r.begin end_ = true ∧
      r.table_size = 11 ∧ (∀ i, r.table.getD i [] = []) ∧
      ctor id 0 11 = some r :=
  ⟨by decide, by decide, clear_resets id 0 11 (by decide) table_8⟩

/-- C13 (bucket placement, I1).  In every table reachable from a constructor with
`N >= 1` the capacity is at least one and every node of the chain of bucket `i`
holds a key `k` with `hash(k) mod capacity == i`; hence `find`, `count` and `erase`
see every stored key: for a key held by any node, `count` is 1, `find` differs from
`end()` and dereferences to the key, and `erase` returns 1. -/
theorem bucket_placement (hasher : Key → Nat) (N : Nat) (hN : 1 ≤ N) (s : ADS_set Key)
    (h : Reachable hasher N s) :
    1 ≤ s.table_size ∧
    (∀ i, i < s.table_size → ∀ k ∈ s.table.getD i [], hasher k % s.table_size = i) ∧
    (∀ k, k ∈ s.table.flatten →
      count hasher s k = 1 ∧
      Iterator.operator_ne (find hasher s k) end_ = true ∧
      Iterator.deref (find hasher s k) = some k ∧
      (erase hasher s k).2 = 1) := by
  have hi := reachable_inv hasher N hN s h
  refine ⟨hi.1, hi.2.1, fun k hk => ?_⟩
  have hk1 : k ∈ keys s := hk
  obtain ⟨rest, hr⟩ := find_deref hasher s hi.1 hi.2.1 k hk1
  refine ⟨by rw [count_eq hasher s hi.1 hi.2.1, if_pos hk1], ?_, ?_, ?_⟩
  · simp [Iterator.operator_ne, Iterator.operator_eq, hr, end_]
  · simp [Iterator.deref, hr]
  · rw [erase_eq hasher s k hi.1 hi.2.1, if_pos hk1]

/-- Witness of C13: `table_8`, reached by `insert(5)` on the table built from a list
of seven keys, after a rehash from capacity 11 to 22. -/
theorem bucket_placement_witness :
    1 ≤ 11 ∧ Reachable id 11 table_8 ∧
    (1 ≤ table_8.table_size ∧
      (∀ i, i < table_8.table_size → ∀ k ∈ table_8.table.getD i [],
        id k % table_8.table_size = i) ∧
      (∀ k, k ∈ table_8.table.flatten →
        count id table_8 k = 1 ∧
        Iterator.operator_ne (find id table_8 k) end_ = true ∧
        Iterator.deref (find id table_8 k) = some k ∧
        (erase id table_8 k).2 = 1)) :=
  have hr : Reachable id 11 table_8 :=
    Reachable.insert 1 table_7 5 (table_8, find id table_8 5, true)
      (Reachable.range 0 [3, 7, 11, 18, 1, 2, 4] table_7 (by decide)) (by decide)
  ⟨by decide, hr, bucket_placement id 11 (by decide) table_8 hr⟩

end ADS_set

/-! ## Rehash and reserve -/

namespace ADS_set

variable {Key : Type} [DecidableEq Key]

theorem load_pow_le (m c f : Nat) (hc : 1 ≤ c) (hf : m ≤ f) : 10 * m ≤ 7 * c * 2 ^ f := by
  have h1 := load_pow m c hc
  have h2 : 2 ^ m ≤ 2 ^ f := Nat.pow_le_pow_right (by omega) hf
  have h3 : 7 * c * 2 ^ m ≤ 7 * c * 2 ^ f := Nat.mul_le_mul_left _ h2
  omega

/-- C15 (rehash preserves contents).  On a table that satisfies I1, I3 and I5,
`rehash(n)` with `n >= 1` returns once the fuel allows `size()` nested rehashes;
afterwards `size()` and `count(k)` for every key `k` are what they were, although
the counter is reset and the keys are re-inserted, possibly through nested
rehashes; I1 and I3 hold again. -/
theorem rehash_preserves (hasher : Key → Nat) (fuel : Nat) (s : ADS_set Key) (n : Nat)
    (hs : 1 ≤ s.table_size) (hp : Placed hasher s)
    (h3 : s.number_of_elements = (keys s).length) (hn : 1 ≤ n) (hf : size s ≤ fuel) :
    ∃ r, rehash hasher fuel s n = some r ∧ size r = size s ∧
      (∀ k, count hasher r k = count hasher s k) ∧
      1 ≤ r.table_size ∧ Placed hasher r ∧ r.number_of_elements = (keys r).length := by
  obtain ⟨r, hr, hc, h3r, hpr, _, hplr⟩ := rehash_total hasher fuel s n hn
    (load_pow_le _ n fuel hn (by rw [← h3]; exact hf))
  refine ⟨r, hr, ?_, fun k => ?_, by omega, hplr, h3r⟩
  · unfold size; rw [h3r, hpr.length_eq, h3]
  · rw [count_eq hasher r (by omega) hplr k, count_eq hasher s hs hp k]
    simp only [hpr.mem_iff]

/-- Witness of C15: `rehash(1)` on `{3, 7, 11, 18}`, which opens nested rehashes
(capacity 1 cannot hold a key under the load limit) and ends at capacity 8. -/
theorem rehash_preserves_witness :
    1 ≤ table_4.table_size ∧ Placed id table_4 ∧
    table_4.number_of_elements = (keys table_4).length ∧ 1 ≤ 1 ∧ size table_4 ≤ 4 ∧
    rehash id 0 table_4 1 = none ∧
    (rehash id 4 table_4 1).map table_size = some 8 ∧
    ∃ r, rehash id 4 table_4 1 = some r ∧ size r = size table_4 ∧
      (∀ k, count id r k = count id table_4 k) ∧
      1 ≤ r.table_size ∧ Placed id r ∧ r.number_of_elements = (keys r).length :=
  ⟨by decide, by decide, by decide, by decide, by decide, by decide, by decide,
    rehash_preserves id 4 table_4 1 (by decide) (by decide) (by decide) (by decide)
      (by decide)⟩

theorem reserve_bound (n c : Nat) : 10 * n ≤ 7 * (2 ^ (n + 1) * (c + 1) - 1) := by
  have h1 : n < 2 ^ n := Nat.lt_two_pow n
  have h2 : 2 ^ (n + 1) = 2 * 2 ^ n := by ring
  have h3 : 2 ^ (n + 1) ≤ 2 ^ (n + 1) * (c + 1) := Nat.le_mul_of_pos_right _ (by omega)
  omega

end ADS_set

/-! ## Capacity never shrinks; termination -/

namespace ADS_set

variable {Key : Type} [DecidableEq Key]

theorem rehash_chain_capacity (ins : ADS_set Key → Key → Option (ADS_set Key × List Key))
    (hins : ∀ s k r, ins s k = some r → s.table_size ≤ r.1.table_size)
    (L : List Key) (s r : ADS_set Key) (h : rehash_chain ins L s = some r) :
    s.table_size ≤ r.table_size := by
  induction L generalizing s with
  | nil =>
    rw [rehash_chain] at h
    cases h; exact Nat.le_refl _
  | cons k L ih =>
    rw [rehash_chain] at h
    cases hk : ins s k with
    | none => rw [hk] at h; cases h
    | some q =>
      rw [hk] at h
      exact Nat.le_trans (hins s k q hk) (ih q.1 h)

/-- Whenever `insert_direct` returns, the capacity it leaves is at least the one it
found, on every table and for every fuel. -/
theorem insert_direct_capacity (hasher : Key → Nat) (fuel : Nat) :
    ∀ (s : ADS_set Key) (k : Key) (r : ADS_set Key × List Key),
      insert_direct hasher fuel s k = some r → s.table_size ≤ r.1.table_size := by
  induction fuel with
  | zero =>
    intro s k r h
    rw [insert_direct] at h
    split at h
    · cases h
    · cases h
      simp only [link_table_size]; exact Nat.le_refl _
  | succ f ih =>
    intro s k r h
    rw [insert_direct] at h
    split at h
    · rw [rehash_buckets_flatten] at h
      cases hq : rehash_chain (insert_direct hasher f) (link hasher s k).table.flatten
          (fresh ((link hasher s k).table_size * 2)) with
      | none => rw [hq] at h; cases h
      | some q =>
        rw [hq] at h
        cases h
        have := rehash_chain_capacity (insert_direct hasher f) ih _ _ _ hq
        rw [fresh_table_size, link_table_size] at this
        simp only
        omega
    · cases h
      simp only [link_table_size]; exact Nat.le_refl _

theorem reserve_capacity (hasher : Key → Nat) (fuel : Nat) (s r : ADS_set Key) (n : Nat)
    (h : reserve hasher fuel s n = some r) : s.table_size ≤ r.table_size := by
  unfold reserve at h
  split at h
  · unfold rehash at h
    rw [rehash_buckets_flatten] at h
    have := rehash_chain_capacity (insert_direct hasher fuel)
      (insert_direct_capacity hasher fuel) _ _ _ h
    rw [fresh_table_size] at this
    have := reserve_loop_ge (n + 1) n s.table_size
    omega
  · cases h; exact Nat.le_refl _

theorem insert_range_capacity (hasher : Key → Nat) (fuel : Nat) (L : List Key)
    (s r : ADS_set Key) (h : insert_range hasher fuel s L = some r) :
    s.table_size ≤ r.table_size := by
  induction L generalizing s with
  | nil =>
    rw [insert_range] at h
    cases h; exact Nat.le_refl _
  | cons k L ih =>
    rw [insert_range] at h
    split at h
    · cases h1 : reserve hasher fuel s (s.number_of_elements + 1) with
      | none => rw [h1] at h; cases h
      | some s1 =>
        rw [h1] at h
        simp only at h
        cases h2 : insert_direct hasher fuel s1 k with
        | none => rw [h2] at h; cases h
        | some q =>
          rw [h2] at h
          simp only at h
          have a := reserve_capacity hasher fuel s s1 _ h1
          have b := insert_direct_capacity hasher fuel s1 k q h2
          have c := ih q.1 h
          omega
    · exact ih s h

theorem erase_capacity (hasher : Key → Nat) (s : ADS_set Key) (k : Key) :
    (erase hasher s k).1.table_size = s.table_size := by
  unfold erase
  split
  · split
    · split
      · simp [table_size]
      · rfl
    · rfl
  · rfl

/-- C17 (capacity never shrinks under insert and erase).  On every table and for
every key, `erase(k)` leaves the capacity exactly as it was; whenever `insert(k)` or
a range or list insertion returns, the capacity is at least the one before the
call; and on a table that satisfies the invariants both insertions do return. -/
theorem capacity_monotone (hasher : Key → Nat) (s : ADS_set Key) (k : Key) :
    (erase hasher s k).1.table_size = s.table_size ∧
    (∀ fuel r, insert hasher fuel s k = some r → s.table_size ≤ r.1.table_size) ∧
    (∀ fuel L r, insert_range hasher fuel s L = some r → s.table_size ≤ r.table_size) ∧
    (Inv hasher s →
      (∃ r, insert hasher 1 s k = some r) ∧ ∀ L, ∃ r, insert_range hasher 0 s L = some r) := by
  refine ⟨erase_capacity hasher s k, fun fuel r h => ?_,
    fun fuel L r h => insert_range_capacity hasher fuel L s r h, fun hi => ?_⟩
  · unfold insert at h
    split at h
    · cases h; exact Nat.le_refl _
    · cases hq : insert_direct hasher fuel s k with
      | none => rw [hq] at h; cases h
      | some q =>
        rw [hq] at h
        cases h
        exact insert_direct_capacity hasher fuel s k q hq
  · refine ⟨insert_returns hasher 0 s k hi, fun L => ?_⟩
    obtain ⟨r, hr, _⟩ := insert_range_spec hasher 0 L s hi
    exact ⟨r, hr⟩

/-- Witness of C17: `table_7`, on which `insert(5)` doubles the capacity. -/
theorem capacity_monotone_witness :
    Inv id table_7 ∧
    ((erase id table_7 5).1.table_size = table_7.table_size ∧
      (∀ fuel r, insert id fuel table_7 5 = some r →
        table_7.table_size ≤ r.1.table_size) ∧
      (∀ fuel L r, insert_range id fuel table_7 L = some r →
        table_7.table_size ≤ r.table_size) ∧
      (Inv id table_7 →
        (∃ r, insert id 1 table_7 5 = some r) ∧
        ∀ L, ∃ r, insert_range id 0 table_7 L = some r)) ∧
    (insert id 1 table_7 5).map (fun r => r.1.table_size) = some 22 ∧
    (erase id table_7 7).1.table_size = 11 :=
  ⟨by decide, capacity_monotone id table_7 5, by decide, by decide⟩

theorem reserve_loop_stable (n : Nat) (b c : Nat)
    (h : 10 * n ≤ 7 * (2 ^ (b + 1) * (c + 1) - 1)) (bound : Nat) (hb : b + 1 ≤ bound) :
    reserve_loop bound n c = reserve_loop (b + 1) n c := by
  induction b generalizing c bound with
  | zero =>
    obtain ⟨m, hm⟩ : ∃ m, bound = m + 1 := ⟨bound - 1, by omega⟩
    have h1 : ¬ 10 * n > 7 * (c * 2 + 1) := by
      have : 2 ^ (0 + 1) * (c + 1) - 1 = c * 2 + 1 := by omega
      rw [this] at h; omega
    rw [hm, reserve_loop, reserve_loop, if_neg h1, if_neg h1]
  | succ b ih =>
    obtain ⟨m, hm⟩ : ∃ m, bound = m + 1 := ⟨bound - 1, by omega⟩
    rw [hm, reserve_loop, reserve_loop]
    by_cases hc : 10 * n > 7 * (c * 2 + 1)
    · rw [if_pos hc, if_pos hc]
      have h1 : 2 ^ (b + 1) * (c * 2 + 1 + 1) = 2 ^ (b + 1 + 1) * (c + 1) := by ring
      exact ih (c * 2 + 1) (by rw [h1]; exact h) m (by omega)
    · rw [if_neg hc, if_neg hc]

/-- C19 (termination of growth).  On every table with capacity at least one,
`insert_direct` returns once the fuel exceeds the number of nodes, and `rehash(n)`
for `n >= 1` returns once the fuel reaches the number of nodes, whether or not the
load limit (I4) holds on entry; on a table that satisfies I3 and I4 one nested
rehash suffices for `insert_direct`; and the loop of `reserve` leaves through its
condition within `n + 1` iterations, so its result does not depend on a larger
bound. -/
theorem growth_terminates (hasher : Key → Nat) (s : ADS_set Key) (k : Key)
    (hs : 1 ≤ s.table_size) :
    (∀ fuel, (keys s).length + 1 ≤ fuel → ∃ r, insert_direct hasher fuel s k = some r) ∧
    (∀ n fuel, 1 ≤ n → (keys s).length ≤ fuel → ∃ r, rehash hasher fuel s n = some r) ∧
    (s.number_of_elements = (keys s).length →
      10 * s.number_of_elements ≤ 7 * s.table_size →
      ∃ r, insert_direct hasher 1 s k = some r) ∧
    (∀ n c bound, n + 1 ≤ bound →
      reserve_loop bound n c = reserve_loop (n + 1) n c ∧
      10 * n ≤ 7 * reserve_loop bound n c) := by
  refine ⟨fun fuel hf => ?_, fun n fuel hn hf => ?_, fun h3 h4 => ?_,
    fun n c bound hb => ?_⟩
  · by_cases hov : 7 * (link hasher s k).table_size <
        10 * (link hasher s k).number_of_elements
    · obtain ⟨f, hfe⟩ : ∃ f, fuel = f + 1 := ⟨fuel - 1, by omega⟩
      have hperm := link_keys_perm hasher s k hs
      have hlen : (keys (link hasher s k)).length = (keys s).length + 1 := by
        rw [hperm.length_eq]; rfl
      obtain ⟨r, hr, _⟩ := rehash_chain_total hasher f (insert_direct_total hasher f)
        (keys (link hasher s k)) (fresh (s.table_size * 2))
        (by rw [fresh_table_size]; omega) (by rw [fresh_keys]; rfl)
        (by
          rw [fresh_table_size, hlen]
          have h1 := load_pow_le ((keys s).length + 1) s.table_size (f + 1) hs (by omega)
          have h2 : 7 * s.table_size * 2 ^ (f + 1) = 7 * (s.table_size * 2) * 2 ^ f := by
            ring
          rw [h2] at h1
          show 10 * (0 + ((keys s).length + 1)) ≤ _
          omega)
      refine ⟨(r, r.table.getD (hash hasher s k) []), ?_⟩
      rw [hfe, insert_direct, if_pos hov, rehash_buckets_flatten]
      have hr1 : rehash_chain (insert_direct hasher f) (link hasher s k).table.flatten
          (fresh ((link hasher s k).table_size * 2)) = some r := by
        rw [link_table_size]; exact hr
      rw [hr1]
    · refine ⟨_, insert_direct_fit hasher fuel s k ?_⟩
      rw [link_table_size, link_number] at hov
      omega
  · obtain ⟨r, hr, _⟩ := rehash_total hasher fuel s n hn (load_pow_le _ n fuel hn hf)
    exact ⟨r, hr⟩
  · exact ⟨_, insert_direct_eq hasher 0 s k hs h3 h4⟩
  · have h1 := reserve_loop_stable n n c (reserve_bound n c) bound hb
    rw [h1]
    exact ⟨rfl, reserve_loop_exit n c⟩

/-- Witness of C19: `table_full`, capacity 1 with three nodes, far above the load
limit; `insert_direct(4)` opens nested rehashes and returns at capacity 8. -/
theorem growth_terminates_witness :
    1 ≤ table_full.table_size ∧
    ¬ 10 * table_full.number_of_elements ≤ 7 * table_full.table_size ∧
    insert_direct id 1 table_full 4 = none ∧
    (insert_direct id 4 table_full 4).map (fun r => r.1.table_size) = some 8 ∧
    ((∀ fuel, (keys table_full).length + 1 ≤ fuel →
        ∃ r, insert_direct id fuel table_full 4 = some r) ∧
      (∀ n fuel, 1 ≤ n → (keys table_full).length ≤ fuel →
        ∃ r, rehash id fuel table_full n = some r) ∧
      (table_full.number_of_elements = (keys table_full).length →
        10 * table_full.number_of_elements ≤ 7 * table_full.table_size →
        ∃ r, insert_direct id 1 table_full 4 = some r) ∧
      (∀ n c bound, n + 1 ≤ bound →
        reserve_loop bound n c = reserve_loop (n + 1) n c ∧
        10 * n ≤ 7 * reserve_loop bound n c)) :=
  ⟨by decide, by decide, by decide, by decide, growth_terminates id table_full 4 (by decide)⟩

end ADS_set

/-! ## The pointer returned by `insert_direct` -/

namespace ADS_set

variable {Key : Type} [DecidableEq Key]

/-- C20, the code at a failing input.  `insert_direct(16)` on `table_7` (capacity
11, seven keys, 16 not stored) computes the index `16 % 11 = 5` at entry, links the
node, rehashes to capacity 22, and returns `table[5]` of the new table.  That slot
is null; the node that holds 16 is the head of bucket `16 % 22 = 16`. -/
theorem insert_direct_stale_index :
    Inv id table_7 ∧ 16 ∉ keys table_7 ∧ hash id table_7 16 = 5 ∧
    insert_direct id 1 table_7 16 = some (table_16, []) ∧
    hash id table_16 16 = 16 ∧
    table_16.table.getD 5 [] = [] ∧
    table_16.table.getD 16 [] = [16] ∧
    find_position id table_16 16 = [16] := by
  refine ⟨by decide, by decide, by decide, by decide, by decide, by decide, by decide,
    by decide⟩

/-! ## Traversal order -/

/-- C14, counterexample.  `insert` of 0, 22, 1, 2, 3, 4, 5, 6 on a default table of
capacity 11 leaves `table_0_22` (capacity 22, after one rehash).  The keys 0 and 22
lie in the same bucket, 22 was inserted after 0 (it comes before 0 in the
most-recently-inserted-first list), and the traversal yields 0 before 22.  Before
the rehash the traversal yielded 22 before 0. -/
theorem traversal_order_counterexample :
    run id 1 ([0, 22, 1, 2, 3, 4, 5, 6].map Call.insert) (fresh 11) = some table_0_22 ∧
    recent [0, 22, 1, 2, 3, 4, 5, 6] = [6, 5, 4, 3, 2, 1, 22, 0] ∧
    hash id table_0_22 0 = hash id table_0_22 22 ∧
    elements table_0_22 = [0, 22, 1, 2, 3, 4, 5, 6] ∧
    (run id 1 ([0, 22, 1, 2, 3, 4, 5].map Call.insert) (fresh 11)).map elements =
      some [22, 0, 1, 2, 3, 4, 5] := by
  refine ⟨by decide, by decide, by decide, by decide, by decide⟩

end ADS_set

/-! ## Range insertion grows through `reserve` only -/

namespace ADS_set

variable {Key : Type} [DecidableEq Key]

end ADS_set

/-! ## Traversal order without a rehash -/

namespace ADS_set

variable {Key : Type} [DecidableEq Key]

theorem flatten_bucket_sorted (b : Key → Nat) (l : List (List Key)) (off : Nat)
    (h : ∀ i, i < l.length → ∀ k ∈ l.getD i [], b k = off + i) :
    l.flatten.Pairwise (fun x y => b x ≤ b y) := by
  induction l generalizing off with
  | nil => simp
  | cons a l ih =>
    rw [List.flatten_cons, List.pairwise_append]
    have ha : ∀ x ∈ a, b x = off := fun x hx => by
      have := h 0 (by simp) x (by simpa using hx)
      omega
    refine ⟨List.pairwise_of_forall_mem_list (fun x hx y hy => ?_), ih (off + 1) ?_, ?_⟩
    · rw [ha x hx, ha y hy]
    · intro i hi k hk
      have := h (i + 1) (by simpa using hi) k (by simpa using hk)
      omega
    · intro x hx y hy
      obtain ⟨i, hi, hk⟩ := (mem_flatten_iff_getD l y).mp hy
      have := h (i + 1) (by simpa using hi) y (by simpa using hk)
      rw [ha x hx]; omega

/-- On a table that satisfies I1 the traversal is ascending in the bucket index. -/
theorem elements_sorted (hasher : Key → Nat) (s : ADS_set Key) (hp : Placed hasher s) :
    (elements s).Pairwise (fun x y => hash hasher s x ≤ hash hasher s y) := by
  rw [elements_eq_keys]
  exact flatten_bucket_sorted (hash hasher s) s.table 0 (fun i hi k hk => by
    have := hp i hi k hk
    unfold hash
    omega)

theorem buckets_length (hasher : Key → Nat) (N : Nat) (H : List Key) :
    (buckets hasher N H).length = N := by
  simp [buckets]

theorem buckets_getD (hasher : Key → Nat) (N : Nat) (H : List Key) (i : Nat) (hi : i < N) :
    (buckets hasher N H).getD i [] = H.filter (fun k => hasher k % N = i) := by
  rw [List.getD_eq_getElem _ _ (by rw [buckets_length]; exact hi)]
  simp [buckets]

theorem mem_buckets (hasher : Key → Nat) (N : Nat) (hN : 1 ≤ N) (H : List Key) (k : Key) :
    k ∈ (buckets hasher N H).flatten ↔ k ∈ H := by
  rw [mem_flatten_iff_getD, buckets_length]
  constructor
  · rintro ⟨i, hi, hk⟩
    rw [buckets_getD hasher N H i hi] at hk
    exact (List.mem_filter.mp hk).1
  · intro hk
    refine ⟨hasher k % N, Nat.mod_lt _ hN, ?_⟩
    rw [buckets_getD hasher N H _ (Nat.mod_lt _ hN)]
    exact List.mem_filter.mpr ⟨hk, by simp⟩

theorem buckets_link (hasher : Key → Nat) (N : Nat) (hN : 1 ≤ N) (H : List Key) (k : Key) :
    (buckets hasher N H).set (hasher k % N)
      (k :: (buckets hasher N H).getD (hasher k % N) []) = buckets hasher N (k :: H) := by
  apply List.ext_getElem
  · simp [buckets_length]
  · intro i h1 h2
    have hi : i < N := by rw [buckets_length] at h2; exact h2
    have e1 : (buckets hasher N (k :: H))[i] =
        (k :: H).filter (fun x => hasher x % N = i) := by simp [buckets]
    have h3 : i < (buckets hasher N H).length := by rw [buckets_length]; exact hi
    have e2 : (buckets hasher N H)[i] = H.filter (fun x => hasher x % N = i) := by
      simp [buckets]
    have e3 := buckets_getD hasher N H _ (Nat.mod_lt (hasher k) hN)
    rw [List.getElem_set, e1, List.filter_cons]
    by_cases hk : hasher k % N = i
    · rw [if_pos hk, e3, hk]
      simp [hk]
    · rw [if_neg hk, e2]
      simp [hk]

theorem recent_step_length (L H : List Key) :
    H.length ≤ (L.foldl (fun H k => if k ∈ H then H else k :: H) H).length := by
  induction L generalizing H with
  | nil => exact Nat.le_refl _
  | cons k L ih =>
    simp only [List.foldl_cons]
    by_cases hk : k ∈ H
    · rw [if_pos hk]; exact ih H
    · rw [if_neg hk]
      have := ih (k :: H)
      simp only [List.length_cons] at this
      omega

/-- Without a rehash a run of `insert(k)` calls keeps, in every bucket, the keys of
that bucket in most-recently-inserted-first order. -/
theorem run_inserts_recent (hasher : Key → Nat) (N : Nat) (hN : 1 ≤ N) (fuel : Nat)
    (L H : List Key) (s : ADS_set Key) (h : Inv hasher s)
    (ht : s.table = buckets hasher N H) (hn : s.number_of_elements = H.length)
    (hb : 10 * (L.foldl (fun H k => if k ∈ H then H else k :: H) H).length ≤ 7 * N) :
    ∃ r, run hasher (fuel + 1) (L.map Call.insert) s = some r ∧
      r.table = buckets hasher N (L.foldl (fun H k => if k ∈ H then H else k :: H) H) := by
  induction L generalizing H s with
  | nil => exact ⟨s, rfl, ht⟩
  | cons k L ih =>
    have hts : s.table_size = N := by
      unfold table_size; rw [ht, buckets_length]
    have hmem : k ∈ keys s ↔ k ∈ H := by
      unfold keys; rw [ht]; exact mem_buckets hasher N hN H k
    simp only [List.map_cons, List.foldl_cons, run]
    rw [insert_eq hasher fuel s k h]
    by_cases hk : k ∈ H
    · rw [if_pos (hmem.mpr hk)]
      simp only [List.foldl_cons, if_pos hk] at hb ⊢
      exact ih H s h ht hn hb
    · rw [if_neg (fun e => hk (hmem.mp e))]
      simp only [List.foldl_cons, if_neg hk] at hb ⊢
      have hlen := recent_step_length L (k :: H)
      simp only [List.length_cons] at hlen
      have hfit : ¬ 7 * s.table_size < 10 * (s.number_of_elements + 1) := by
        rw [hts, hn]; omega
      have hstate : insert_direct_state hasher s k = link hasher s k := by
        unfold insert_direct_state; rw [if_neg hfit]
      rw [hstate]
      have hinv : Inv hasher (link hasher s k) := by
        rw [← hstate]
        exact insert_direct_state_inv hasher s k h (fun e => hk (hmem.mp e))
      refine ih (k :: H) (link hasher s k) hinv ?_ ?_ hb
      · unfold link hash
        simp only
        rw [hts, ht]
        exact buckets_link hasher N hN H k
      · rw [link_number, hn]; rfl

/-- C14, amended.  For `N >= 1` every sequence of `insert(k)` calls on a default
table returns, and the traversal from `begin()` to `end()` of the table it leaves
is ascending in the bucket index `hash(k) mod capacity`, rehashed or not.  When
the number of distinct keys respects the load limit of the initial capacity (no
rehash has taken place), the chain of every bucket holds the keys of that bucket
in most-recently-inserted-first order. -/
theorem traversal_order (hasher : Key → Nat) (N : Nat) (hN : 1 ≤ N) (fuel : Nat)
    (L : List Key) :
    ∃ s, run hasher (fuel + 1) (L.map Call.insert) (fresh N) = some s ∧
      (elements s).Pairwise (fun x y => hash hasher s x ≤ hash hasher s y) ∧
      (10 * (recent L).length ≤ 7 * N →
        s.table_size = N ∧
        (∀ i, i < N →
          s.table.getD i [] = (recent L).filter (fun k => hasher k % N = i)) ∧
        elements s = (buckets hasher N (recent L)).flatten) := by
  obtain ⟨s, hs, hi, _⟩ := run_spec hasher fuel (L.map Call.insert) (fresh N)
    (fresh_inv hasher N hN)
  refine ⟨s, hs, elements_sorted hasher s hi.2.1, fun hb => ?_⟩
  have h0 : (fresh N : ADS_set Key).table = buckets hasher N [] := by
    apply List.ext_getElem
    · simp [fresh, buckets_length]
    · intro i h1 h2
      simp [fresh, buckets]
  obtain ⟨r, hr, hrt⟩ := run_inserts_recent hasher N hN fuel L [] (fresh N)
    (fresh_inv hasher N hN) h0 rfl hb
  rw [hs] at hr
  cases hr
  refine ⟨by unfold table_size; rw [hrt, buckets_length], fun i hi => ?_, ?_⟩
  · rw [hrt]; exact buckets_getD hasher N _ i hi
  · rw [elements_eq_keys]; unfold keys; rw [hrt]; rfl

/-- Witness of C14 amended: `insert` of 0, 22, 1, 2, 3, 4, 5 on a default table of
capacity 11 (no rehash): bucket 0 holds 22 before 0. -/
theorem traversal_order_witness :
    1 ≤ 11 ∧ 10 * (recent [0, 22, 1, 2, 3, 4, 5]).length ≤ 7 * 11 ∧
    (run id 1 ([0, 22, 1, 2, 3, 4, 5].map Call.insert) (fresh 11)).map elements =
      some [22, 0, 1, 2, 3, 4, 5] ∧
    ∃ s, run id (0 + 1) ([0, 22, 1, 2, 3, 4, 5].map Call.insert) (fresh 11) = some s ∧
      (elements s).Pairwise (fun x y => hash id s x ≤ hash id s y) ∧
      (10 * (recent [0, 22, 1, 2, 3, 4, 5]).length ≤ 7 * 11 →
        s.table_size = 11 ∧
        (∀ i, i < 11 →
          s.table.getD i [] = (recent [0, 22, 1, 2, 3, 4, 5]).filter
            (fun k => id k % 11 = i)) ∧
        elements s = (buckets id 11 (recent [0, 22, 1, 2, 3, 4, 5])).flatten) :=
  ⟨by decide, by decide, by decide,
    traversal_order id 11 (by decide) 0 [0, 22, 1, 2, 3, 4, 5]⟩

end ADS_set
